import Mathlib

/-!
# Verification of the PubGrub version-solver core

A shallow embedding of the solver's core (ranges over ordered segment
lists, terms, incompatibilities, the partial solution with its assignment
log, and the solver state with unit propagation and conflict resolution),
together with theorems checking the specification's claims against it.

The embedding instantiates the generic code at the numeric version type
(`lowest = 0`, `bump v = v + 1`) and at numeric package names, matching
the `NumberVersion` instance the crate itself tests with.  Fallible
operations (Rust `panic!`/`unwrap`/`expect`) are rendered as `Option`
results or are guarded by the well-formedness hypotheses under which the
source documents them unreachable; the two unbounded `loop`s (conflict
resolution and the outer unit-propagation loop) take an explicit fuel
argument, exhaustion returning `none`.
-/

set_option maxHeartbeats 1000000

namespace PubGrub

/-! ## Ranges (from `src/range.rs`)

A range is a sequence of half-open intervals `[lo, hi)`; `hi = none`
means the interval is unbounded above. -/

abbrev Seg : Type := Nat × Option Nat

abbrev Range : Type := List Seg

namespace Range

/-- Empty set of versions. -/
def noneR : Range := []

/-- Set of all versions higher or equal to some version. -/
def higher_than (v : Nat) : Range := [(v, Option.none)]

/-- Set of all possible versions (`higher_than lowest`, with `lowest = 0`). -/
def anyR : Range := higher_than 0

/-- Set containing exactly one version: `[v, bump v)` with `bump v = v + 1`. -/
def exact (v : Nat) : Range := [(v, Option.some (v + 1))]

/-- Set of all versions strictly lower than some version. -/
def strictly_lower_than (v : Nat) : Range :=
  if v = 0 then noneR else [(0, Option.some v)]

/-- Set of all versions `v1 <= v < v2`. -/
def between (v1 v2 : Nat) : Range :=
  if v1 < v2 then [(v1, Option.some v2)] else noneR

/-- Check if a range contains a given version (the segment walk of the
source; on a segment with no high bound the walk returns `lo <= v`). -/
def contains : Range → Nat → Bool
  | [], _ => false
  | (v1, Option.none) :: _, version => v1 ≤ version
  | (v1, Option.some v2) :: rest, version =>
      if version < v1 then false
      else if version < v2 then true
      else contains rest version

/-- Helper performing the negation of the intervals in segments: it emits
the gap before each segment.  The source unwraps an option that is `none`
exactly when an unbounded segment was seen earlier; on canonical input an
unbounded segment is last, so the tail dropped here is always empty. -/
def negate_segments : Nat → List Seg → List Seg
  | start, [] => [(start, Option.none)]
  | start, (v1, Option.some v2) :: rest => (start, Option.some v1) :: negate_segments v2 rest
  | start, (v1, Option.none) :: _ => [(start, Option.some v1)]

/-- Compute the complement set of versions. -/
def negate : Range → Range
  | [] => anyR
  | (v, Option.none) :: _ =>
      if v = 0 then noneR else strictly_lower_than v
  | (v1, Option.some v2) :: rest =>
      if v1 = 0 then negate_segments v2 rest
      else negate_segments 0 ((v1, Option.some v2) :: rest)

/-- The loop body of the segment-merge intersection, with an explicit
step counter so that the definition is structurally recursive (and hence
computable by the kernel).  Every loop iteration of the source consumes
one segment from one of the two lists, so `s1.length + s2.length` steps
always suffice; the `0` case is never reached from
`intersection_segments`. -/
def intersection_fuel : Nat → List Seg → List Seg → List Seg
  | 0, _, _ => []
  | n + 1, s1, s2 =>
    match s1, s2 with
    | (l1, Option.some l2) :: ls, (r1, Option.some r2) :: rs =>
        if l2 ≤ r1 then intersection_fuel n ls ((r1, Option.some r2) :: rs)
        else if r2 ≤ l1 then intersection_fuel n ((l1, Option.some l2) :: ls) rs
        else if l2 < r2 then
          (max l1 r1, Option.some l2) :: intersection_fuel n ls ((r1, Option.some r2) :: rs)
        else
          (max l1 r1, Option.some r2) :: intersection_fuel n ((l1, Option.some l2) :: ls) rs
    | (l1, Option.some l2) :: ls, (r1, Option.none) :: rs =>
        if l2 < r1 then intersection_fuel n ls ((r1, Option.none) :: rs)
        else if l2 = r1 then ls
        else (max l1 r1, Option.some l2) :: ls
    | (l1, Option.none) :: ls, (r1, Option.some r2) :: rs =>
        if r2 < l1 then intersection_fuel n ((l1, Option.none) :: ls) rs
        else if r2 = l1 then rs
        else (max l1 r1, Option.some r2) :: rs
    | (l1, Option.none) :: _, (r1, Option.none) :: _ => [(max l1 r1, Option.none)]
    | _, _ => []

/-- Helper performing intersection of two interval segment lists (the
linear merge of the source, advancing the list whose interval ends
first; the three `∞` cases flush the finite remainder). -/
def intersection_segments (s1 s2 : List Seg) : List Seg :=
  intersection_fuel (s1.length + s2.length) s1 s2

/-- Compute the intersection of two sets of versions. -/
def intersection (r1 r2 : Range) : Range := intersection_segments r1 r2

/-- Compute the union of two sets of versions, as in the `RangeSet`
trait: `(¬a ∩ ¬b).negate`. -/
def union (r1 r2 : Range) : Range := (intersection r1.negate r2.negate).negate

/-- Canonical form relative to a lower bound `b` on the next admissible
low bound: segments sorted, non-touching (`hi < next lo`), non-empty,
and an unbounded segment only in last position. -/
def canonicalFrom (b : Nat) : Range → Bool
  | [] => true
  | (lo, Option.none) :: rest => b ≤ lo && rest.isEmpty
  | (lo, Option.some hi) :: rest => b ≤ lo && lo < hi && canonicalFrom (hi + 1) rest

/-- The canonical-form invariant of ranges. -/
def canonical (r : Range) : Bool := canonicalFrom 0 r

/-- The first segment's low bound is above `start` (trivially true for the
empty list); the precondition under which `negate_segments` emits a
non-empty first gap. -/
def headLoAbove (start : Nat) : Range → Prop
  | [] => True
  | (lo, _) :: _ => start < lo

end Range

/-! ## Terms

Modelled from the spec: the file `term.rs` is not part of the provided
sources (only its users are), so `Term` and its operations are modelled
from the specification's §3 ("Term") and §4.2 (the `relation_with`
table), faithful to the spec's words. -/

/-- Modelled from the spec: a tagged value, either `Positive(R)` meaning
"the chosen version is in R" or `Negative(R)` meaning "the chosen version
is NOT in R". -/
inductive Term : Type where
  | Positive (r : Range)
  | Negative (r : Range)
deriving DecidableEq, Repr

namespace Term

/-- Modelled from the spec: `Term::any = Negative(none)`. -/
def anyT : Term := Term.Negative Range.noneR

/-- Modelled from the spec: a decision asserts `Positive(exact(ver))`. -/
def exactT (v : Nat) : Term := Term.Positive (Range.exact v)

/-- Modelled from the spec: negation swaps the tag. -/
def negate : Term → Term
  | Term.Positive r => Term.Negative r
  | Term.Negative r => Term.Positive r

/-- Modelled from the spec: `Pos∩Pos = Pos(a∩b)`; `Neg∩Neg = Neg(a∪b)`;
`Pos∩Neg = Pos(a∩¬b)` (and symmetrically). -/
def intersection : Term → Term → Term
  | Term.Positive r1, Term.Positive r2 => Term.Positive (Range.intersection r1 r2)
  | Term.Positive r1, Term.Negative r2 => Term.Positive (Range.intersection r1 (Range.negate r2))
  | Term.Negative r1, Term.Positive r2 => Term.Positive (Range.intersection (Range.negate r1) r2)
  | Term.Negative r1, Term.Negative r2 => Term.Negative (Range.union r1 r2)

/-- Modelled from the spec: `union` is the dual of `intersection`. -/
def union (t1 t2 : Term) : Term := (t1.negate.intersection t2.negate).negate

/-- Modelled from the spec: `self` is a subset of `other` when
intersecting changes nothing. -/
def subset_of (t1 t2 : Term) : Bool := t1 == t1.intersection t2

/-- Modelled from the spec: whether the version satisfies the assertion. -/
def containsT : Term → Nat → Bool
  | Term.Positive r, v => Range.contains r v
  | Term.Negative r, v => !(Range.contains r v)

/-- The three-valued relation of terms (`term::Relation` in the source). -/
inductive Rel : Type where
  | satisfied
  | contradicted
  | inconclusive
deriving DecidableEq, Repr

/-- Modelled from the spec: the three-valued `relation_with` table of
§4.2 (reading: self term vs other term). -/
def relation_with : Term → Term → Rel
  | Term.Positive a, Term.Positive b =>
      if Range.intersection a b == b then Rel.satisfied
      else if Range.intersection a b == Range.noneR then Rel.contradicted
      else Rel.inconclusive
  | Term.Positive a, Term.Negative b =>
      if Range.intersection a b == Range.noneR then Rel.satisfied
      else if Range.intersection a b == a then Rel.contradicted
      else Rel.inconclusive
  | Term.Negative a, Term.Positive b =>
      if Range.intersection a b == Range.noneR then Rel.satisfied
      else Rel.inconclusive
  | Term.Negative a, Term.Negative b =>
      if Range.intersection b a == b then Rel.satisfied
      else Rel.inconclusive

/-- The canonical-form invariant lifted to terms. -/
def canonicalT : Term → Bool
  | Term.Positive r => Range.canonical r
  | Term.Negative r => Range.canonical r

end Term

/-! ## Association-list model of the hash maps

The source stores per-package data in hash maps whose iteration order is
unspecified; they are modelled as association lists, observed through
`lookupA` (first matching key). -/

def lookupA {α : Type} : List (Nat × α) → Nat → Option α
  | [], _ => Option.none
  | (k, v) :: rest, key => if k = key then Option.some v else lookupA rest key

/-- `HashMap::remove`. -/
def removeA {α : Type} (m : List (Nat × α)) (key : Nat) : List (Nat × α) :=
  m.filter (fun kv => kv.1 != key)

/-- `HashMap::insert` on a key already present (replace in place). -/
def setA {α : Type} (m : List (Nat × α)) (key : Nat) (v : α) : List (Nat × α) :=
  m.map (fun kv => if kv.1 = key then (key, v) else kv)

/-- `HashMap::insert` in general: replace when the key is present,
otherwise add the entry. -/
def upsertA {α : Type} (m : List (Nat × α)) (key : Nat) (d : α) (f : α → α) :
    List (Nat × α) :=
  if (lookupA m key).isSome then
    m.map (fun kv => if kv.1 = key then (key, f kv.2) else kv)
  else m ++ [(key, d)]

/-- `rposition`: index of the last element satisfying the predicate. -/
def rposition {α : Type} (p : α → Bool) : List α → Option Nat
  | [] => Option.none
  | a :: rest =>
    match rposition p rest with
    | Option.some i => Option.some (i + 1)
    | Option.none => if p a then Option.some 0 else Option.none

/-! ## Incompatibilities (from `src/internal/incompatibility.rs`) -/

/-- The origin tag of an incompatibility. -/
inductive Kind : Type where
  | notRoot (package version : Nat)
  | noVersions (package : Nat) (range : Range)
  | unavailableDependencies (package : Nat) (range : Range)
  | fromDependencyOf (package : Nat) (range : Range) (dep : Nat) (depRange : Range)
  | derivedFrom (id1 id2 : Nat)
deriving DecidableEq, Repr

/-- A set of package terms that should never all be satisfied together,
with its creation id and origin tag. -/
structure Incompatibility : Type where
  id : Nat
  package_terms : List (Nat × Term)
  kind : Kind
deriving DecidableEq, Repr

/-- How a set of accumulated terms compares to an incompatibility
(`Relation` in `incompatibility.rs`). -/
inductive Relation : Type where
  | satisfied
  | contradicted (pt : Nat × Term)
  | almostSatisfied (package : Nat)
  | inconclusive
deriving DecidableEq, Repr

namespace Incompatibility

/-- Get the term related to a given package (if it exists). -/
def get (i : Incompatibility) (package : Nat) : Option Term :=
  lookupA i.package_terms package

/-- Create the initial "not Root" incompatibility. -/
def not_root (id package version : Nat) : Incompatibility :=
  ⟨id, [(package, Term.Negative (Range.exact version))], Kind.notRoot package version⟩

/-- Create an incompatibility remembering that a given range contains no
version.  The source panics on a `Negative` term ("No version should have
a positive term"); the panic is rendered as `none`. -/
def no_versions (id package : Nat) (term : Term) : Option Incompatibility :=
  match term with
  | Term.Positive r =>
      Option.some ⟨id, [(package, Term.Positive r)], Kind.noVersions package r⟩
  | Term.Negative _ => Option.none

/-- Create an incompatibility remembering that a package version's
dependency list is unavailable. -/
def unavailable_dependencies (id package version : Nat) : Incompatibility :=
  ⟨id, [(package, Term.Positive (Range.exact version))],
    Kind.unavailableDependencies package (Range.exact version)⟩

/-- Build an incompatibility from a given dependency (the two map inserts
of the source; dependencies are on packages other than the depending
one, so the two keys are distinct). -/
def from_dependency (id package version : Nat) (dep : Nat × Range) : Incompatibility :=
  ⟨id, [(package, Term.Positive (Range.exact version)), (dep.1, Term.Negative dep.2)],
    Kind.fromDependencyOf package (Range.exact version) dep.1 dep.2⟩

/-- Generate incompatibilities from the direct dependencies of a package,
with ids `start_id`, `start_id + 1`, ... -/
def from_dependencies (start_id package version : Nat) (deps : List (Nat × Range)) :
    List Incompatibility :=
  deps.enum.map (fun p => from_dependency (start_id + p.1) package version p.2)

/-- The hash-map merge of the source, observed pointwise: keys of both
maps, a common key merged through `f` (dropped when `f` gives `None`). -/
def mergeMaps (f : Term → Term → Option Term) (m1 m2 : List (Nat × Term)) :
    List (Nat × Term) :=
  (m1.filterMap (fun kv =>
    match lookupA m2 kv.1 with
    | Option.none => Option.some kv
    | Option.some v2 => (f kv.2 v2).map (fun w => (kv.1, w))))
  ++ m2.filter (fun kv => (lookupA m1 kv.1).isNone)

/-- Perform the intersection of terms in two incompatibilities. -/
def intersectionMaps (m1 m2 : List (Nat × Term)) : List (Nat × Term) :=
  mergeMaps (fun t1 t2 => Option.some (t1.intersection t2)) m1 m2

/-- Prior cause of two incompatibilities using the rule of resolution.
The source unwraps the pivot's terms in both maps; a missing pivot is
rendered as `none`. -/
def prior_cause (id : Nat) (incompat satisfier_cause : Incompatibility) (package : Nat) :
    Option Incompatibility :=
  match lookupA incompat.package_terms package,
      lookupA satisfier_cause.package_terms package with
  | Option.some t1, Option.some t2 =>
      let incompat1 := removeA incompat.package_terms package
      let incompat2 := removeA satisfier_cause.package_terms package
      let pt0 := intersectionMaps incompat1 incompat2
      let term := t1.union t2
      Option.some ⟨id,
        if term == Term.anyT then pt0 else pt0 ++ [(package, term)],
        Kind.derivedFrom incompat.id satisfier_cause.id⟩
  | _, _ => Option.none

/-- The looked-up relation of one package term:
`terms(package).map(|term| incompat_term.relation_with(&term))`. -/
def clsOf (terms : Nat → Option Term) : Nat × Term → Option Term.Rel
  | (package, incompat_term) =>
    (terms package).map (fun term => incompat_term.relation_with term)

/-- The fold of `Incompatibility::relation`: `relation` starts from
`Satisfied` and walks the terms, returning `Contradicted` eagerly. -/
def relationAux (terms : Nat → Option Term) :
    List (Nat × Term) → Relation → Relation
  | [], acc => acc
  | (package, incompat_term) :: rest, acc =>
    match clsOf terms (package, incompat_term) with
    | Option.some Term.Rel.satisfied => relationAux terms rest acc
    | Option.some Term.Rel.contradicted => Relation.contradicted (package, incompat_term)
    | _ =>
        relationAux terms rest
          (if acc == Relation.satisfied then Relation.almostSatisfied package
           else Relation.inconclusive)

/-- CF definition of the `Relation` enum. -/
def relation (i : Incompatibility) (terms : Nat → Option Term) : Relation :=
  relationAux terms i.package_terms Relation.satisfied

/-- Check if an incompatibility should mark the end of the algorithm
because it satisfies the root package. -/
def is_terminal (i : Incompatibility) (root_package root_version : Nat) : Bool :=
  match i.package_terms with
  | [] => true
  | [(package, term)] => package == root_package && term.containsT root_version
  | _ => false

/-- Retrieve parent causes if of type `DerivedFrom`. -/
def causes (i : Incompatibility) : Option (Nat × Nat) :=
  match i.kind with
  | Kind.derivedFrom id1 id2 => Option.some (id1, id2)
  | _ => Option.none

end Incompatibility

/-! ## Assignments (from `src/internal/assignment.rs`) -/

/-- A decision (chosen version) or a derivation (term with its cause). -/
inductive Assignment : Type where
  | decision (package version : Nat)
  | derivation (package : Nat) (cause : Incompatibility)
deriving DecidableEq, Repr

namespace Assignment

/-- Return the package for this assignment. -/
def package : Assignment → Nat
  | decision p _ => p
  | derivation p _ => p

/-- Retrieve the current assignment as a `Term`: a decision is a positive
exact term, a derivation is the negation of its cause's term for the
package.  The source unwraps the cause's term; the unreachable missing
case is given the junk value `Term.anyT` and is ruled out by hypotheses
wherever it matters. -/
def as_term : Assignment → Term
  | decision _ version => Term.exactT version
  | derivation p cause =>
    match cause.get p with
    | Option.some t => t.negate
    | Option.none => Term.anyT

end Assignment

/-! ## Memory

Modelled from the spec: the file `memory.rs` is not part of the provided
sources.  Spec §3/§4.4: the memory holds, per package, the decision if
any, the list of derivation terms, and (lazily) the intersection of all
terms of the package; the cache is unobservable, so the intersection is
computed directly. -/

/-- Modelled from the spec: the per-package summary held by the memory. -/
structure PackageAssignments : Type where
  decision : Option Nat
  derivations : List Term
deriving DecidableEq, Repr

abbrev Memory : Type := List (Nat × PackageAssignments)

namespace Memory

def emptyM : Memory := []

/-- Modelled from the spec: a decision records the version, a derivation
appends the derivation's term (`cause.get(pkg).negate()`). -/
def add_assignment (m : Memory) (a : Assignment) : Memory :=
  match a with
  | Assignment.decision package version =>
      upsertA m package ⟨Option.some version, []⟩
        (fun pa => ⟨Option.some version, pa.derivations⟩)
  | Assignment.derivation package cause =>
      let term := match cause.get package with
        | Option.some t => t.negate
        | Option.none => Term.anyT
      upsertA m package ⟨Option.none, [term]⟩
        (fun pa => ⟨pa.decision, pa.derivations ++ [term]⟩)

/-- Modelled from the spec: the intersection of all terms recorded for
this package (`None` when the package has no entry). -/
def term_intersection_for_package (m : Memory) (package : Nat) : Option Term :=
  match lookupA m package with
  | Option.none => Option.none
  | Option.some pa =>
      let terms := (match pa.decision with
        | Option.some v => [Term.exactT v]
        | Option.none => []) ++ pa.derivations
      Option.some (terms.foldl Term.intersection Term.anyT)

end Memory

/-! ## Partial solution (from `src/internal/partial_solution.rs`) -/

/-- The ordered log of dated assignments, the current decision level and
the per-package memory. -/
structure PartialSolution : Type where
  decision_level : Nat
  history : List (Nat × Assignment)
  memory : Memory
deriving DecidableEq, Repr

namespace PartialSolution

/-- Initialize an empty partial solution. -/
def emptyPS : PartialSolution := ⟨0, [], Memory.emptyM⟩

/-- Append an assignment: a decision bumps the decision level, the dated
assignment is pushed and the memory updated. -/
def add_assignment (ps : PartialSolution) (a : Assignment) : PartialSolution :=
  let lvl := match a with
    | Assignment.decision _ _ => ps.decision_level + 1
    | Assignment.derivation _ _ => ps.decision_level
  ⟨lvl, ps.history ++ [(lvl, a)], ps.memory.add_assignment a⟩

/-- Add a decision to the partial solution. -/
def add_decision (ps : PartialSolution) (package version : Nat) : PartialSolution :=
  ps.add_assignment (Assignment.decision package version)

/-- Add a derivation to the partial solution. -/
def add_derivation (ps : PartialSolution) (package : Nat) (cause : Incompatibility) :
    PartialSolution :=
  ps.add_assignment (Assignment.derivation package cause)

/-- Rebuild a partial solution from scratch from a list of assignments. -/
def from_assignments (l : List Assignment) : PartialSolution :=
  l.foldl add_assignment emptyPS

/-- Backtrack the partial solution to a given decision level: find the
last history position dated exactly at that level (the source keeps the
whole history when there is none, via `unwrap_or(len - 1)`), and replay
the prefix up to it from scratch. -/
def backtrack (ps : PartialSolution) (decision_level : Nat) : PartialSolution :=
  let pos := (rposition (fun da => da.1 == decision_level) ps.history).getD
    (ps.history.length - 1)
  from_assignments ((ps.history.take (pos + 1)).map (fun da => da.2))

/-- Check if the terms in the partial solution satisfy the
incompatibility. -/
def relation (ps : PartialSolution) (incompat : Incompatibility) : Relation :=
  incompat.relation (fun package => ps.memory.term_intersection_for_package package)

/-- Add the version as a decision if none of the new incompatibilities,
evaluated with the candidate package mapped to its exact term, is
satisfied. -/
def add_version (ps : PartialSolution) (package version : Nat)
    (new_incompatibilities : List Incompatibility) : PartialSolution :=
  let not_satisfied := fun (incompat : Incompatibility) =>
    !(incompat.relation (fun p =>
        if p = package then Option.some (Term.exactT version)
        else ps.memory.term_intersection_for_package p) == Relation.satisfied)
  if new_incompatibilities.all not_satisfied then ps.add_decision package version
  else ps

/-- The fresh accumulator of the satisfier search: `(false, any)` for
each package of the incompatibility. -/
def new_accum_satisfied_from (incompat : Incompatibility) :
    List (Nat × (Bool × Term)) :=
  incompat.package_terms.map (fun pt => (pt.1, (false, Term.anyT)))

/-- Iterate over the assignments, oldest first, until the first one such
that all assignments up to and including it satisfy the incompatibility;
also return the list of strictly earlier assignments.  A package of the
incompatibility missing from the accumulator makes the source panic,
rendered as `none`. -/
def find_satisfier_helper (incompat : Incompatibility)
    (accum_satisfied : List (Nat × (Bool × Term))) :
    List (Nat × Assignment) →
      Option ((Nat × Assignment) × List (Nat × Assignment))
  | [] => Option.none
  | dated :: rest =>
    match incompat.get dated.2.package with
    | Option.none =>
        -- only packages related to the incompatibility matter
        (find_satisfier_helper incompat accum_satisfied rest).map
          (fun sp => (sp.1, dated :: sp.2))
    | Option.some incompat_term =>
      match lookupA accum_satisfied dated.2.package with
      | Option.none => Option.none
      | Option.some (true, _) =>
          -- already satisfied, no need to check
          (find_satisfier_helper incompat accum_satisfied rest).map
            (fun sp => (sp.1, dated :: sp.2))
      | Option.some (false, accum_term) =>
          let new_term := accum_term.intersection dated.2.as_term
          let is_satisfied := new_term.subset_of incompat_term
          let accum := setA accum_satisfied dated.2.package (is_satisfied, new_term)
          if is_satisfied && accum.all (fun kv => kv.2.1) then
            Option.some (dated, [])
          else
            (find_satisfier_helper incompat accum rest).map
              (fun sp => (sp.1, dated :: sp.2))

/-- A satisfier is the earliest assignment such that the incompatibility
is satisfied by the partial solution up to and including it. -/
def find_satisfier (incompat : Incompatibility) (history : List (Nat × Assignment)) :
    Option ((Nat × Assignment) × List (Nat × Assignment)) :=
  find_satisfier_helper incompat (new_accum_satisfied_from incompat) history

/-- Level of the earliest assignment before the satisfier such that the
incompatibility is satisfied by it together with the satisfier, floored
at decision level 1.  The source `expect`s the satisfier's package to be
in the incompatibility; the panic is rendered as `none`. -/
def find_previous_satisfier (incompat : Incompatibility) (satisfier : Assignment)
    (previous_assignments : List (Nat × Assignment)) : Option Nat :=
  match incompat.get satisfier.package with
  | Option.none => Option.none
  | Option.some incompat_term =>
    let satisfier_term := satisfier.as_term
    let is_satisfied := satisfier_term.subset_of incompat_term
    let accum := setA (new_accum_satisfied_from incompat) satisfier.package
      (is_satisfied, satisfier_term)
    Option.some (match find_satisfier_helper incompat accum previous_assignments with
      | Option.none => 1
      | Option.some sp => max sp.1.1 1)

/-- Find satisfier and previous satisfier decision level.  The source
`expect`s a satisfier to exist; its absence is rendered as `none`. -/
def find_satisfier_and_previous_satisfier_level (ps : PartialSolution)
    (incompat : Incompatibility) : Option (Assignment × Nat × Nat) :=
  match find_satisfier incompat ps.history with
  | Option.none => Option.none
  | Option.some (satisfier, older) =>
    match find_previous_satisfier incompat satisfier.2 older with
    | Option.none => Option.none
    | Option.some lvl => Option.some (satisfier.2, satisfier.1, lvl)

end PartialSolution

/-! ## Solver state (from `src/internal/core.rs`) -/

/-- Current state of the PubGrub algorithm: the root, the live
incompatibilities, the partial solution and the append-only
incompatibility store. -/
structure State : Type where
  root_package : Nat
  root_version : Nat
  incompatibilities : List Incompatibility
  partSolution : PartialSolution
  incompatibility_store : List Incompatibility
deriving DecidableEq, Repr

namespace State

/-- Initialization of PubGrub state: the `NotRoot` incompatibility (id 0)
seeds both the live set and the store. -/
def init (root_package root_version : Nat) : State :=
  ⟨root_package, root_version,
    [Incompatibility.not_root 0 root_package root_version],
    PartialSolution.emptyPS,
    [Incompatibility.not_root 0 root_package root_version]⟩

/-- Add an incompatibility to the state: the generator receives the next
store position as id, the result is pushed to the store and merged into
the live set (`merge_into` just pushes). -/
def add_incompatibility (st : State) (gen : Nat → Incompatibility) : State :=
  ⟨st.root_package, st.root_version,
    st.incompatibilities ++ [gen st.incompatibility_store.length],
    st.partSolution,
    st.incompatibility_store ++ [gen st.incompatibility_store.length]⟩

/-- Backtracking: backtrack the partial solution, and push the
incompatibility to the live set when it changed. -/
def backtrackS (st : State) (incompat : Incompatibility) (incompat_changed : Bool)
    (decision_level : Nat) : State :=
  ⟨st.root_package, st.root_version,
    (if incompat_changed then st.incompatibilities ++ [incompat]
     else st.incompatibilities),
    st.partSolution.backtrack decision_level,
    st.incompatibility_store⟩

/-- The conflict-resolution loop, with fuel for the unbounded `loop` of
the source.  `none` is fuel exhaustion or one of the source's panics
(no satisfier found, pivot missing from a map); `Except.error` is the
`NoSolution` failure, carrying the terminal incompatibility from which
the source builds its derivation-tree report. -/
def conflict_resolution_loop :
    Nat → State → Incompatibility → Bool →
      Option (Except Incompatibility ((Nat × Incompatibility) × State))
  | 0, _, _, _ => Option.none
  | fuel + 1, st, current_incompat, current_incompat_changed =>
    if current_incompat.is_terminal st.root_package st.root_version then
      Option.some (Except.error current_incompat)
    else
      match st.partSolution.find_satisfier_and_previous_satisfier_level
          current_incompat with
      | Option.none => Option.none
      | Option.some (satisfier, satisfier_level, previous_satisfier_level) =>
        match satisfier with
        | Assignment.decision package _ =>
            Option.some (Except.ok ((package, current_incompat),
              st.backtrackS current_incompat current_incompat_changed
                previous_satisfier_level))
        | Assignment.derivation package cause =>
            if previous_satisfier_level ≠ satisfier_level then
              Option.some (Except.ok ((package, current_incompat),
                st.backtrackS current_incompat current_incompat_changed
                  previous_satisfier_level))
            else
              match Incompatibility.prior_cause st.incompatibility_store.length
                  current_incompat cause package with
              | Option.none => Option.none
              | Option.some pc =>
                  conflict_resolution_loop fuel
                    ⟨st.root_package, st.root_version, st.incompatibilities,
                      st.partSolution, st.incompatibility_store ++ [pc]⟩
                    pc true

/-- Return the root cause and the backtracked model. -/
def conflict_resolution (fuel : Nat) (st : State) (incompatibility : Incompatibility) :
    Option (Except Incompatibility ((Nat × Incompatibility) × State)) :=
  conflict_resolution_loop fuel st incompatibility false

/-- The inner `for` loop of `unit_propagation`: walk the given list of
live incompatibilities (already reversed, newest first), skipping those
that do not mention the current package.  A satisfied incompatibility
triggers conflict resolution, after which `changed` is replaced by the
returned package and its derivation is added; the walk then continues
with the remaining (older) incompatibilities. -/
def unit_propagation_inner (cr_fuel : Nat) (st : State) (changed : List Nat)
    (current_package : Nat) :
    List Incompatibility → Option (Except Incompatibility (State × List Nat))
  | [] => Option.some (Except.ok (st, changed))
  | incompat :: rest =>
    if incompat.get current_package = Option.none then
      unit_propagation_inner cr_fuel st changed current_package rest
    else
      match st.partSolution.relation incompat with
      | Relation.satisfied =>
        match conflict_resolution cr_fuel st incompat with
        | Option.none => Option.none
        | Option.some (Except.error e) => Option.some (Except.error e)
        | Option.some (Except.ok ((package_almost, root_cause), st2)) =>
            unit_propagation_inner cr_fuel
              ⟨st2.root_package, st2.root_version, st2.incompatibilities,
                st2.partSolution.add_derivation package_almost root_cause,
                st2.incompatibility_store⟩
              [package_almost] current_package rest
      | Relation.almostSatisfied package_almost =>
          unit_propagation_inner cr_fuel
            ⟨st.root_package, st.root_version, st.incompatibilities,
              st.partSolution.add_derivation package_almost incompat,
              st.incompatibility_store⟩
            (changed ++ [package_almost]) current_package rest
      | _ => unit_propagation_inner cr_fuel st changed current_package rest

/-- Modelled from the spec: the inner pass as §4.5 of the specification
describes it, identical to `unit_propagation_inner` except that on a
`Satisfied` incompatibility it ends the inner iteration at once: the
pass returns immediately after conflict resolution, without examining the
remaining (older) live incompatibilities. -/
def unit_propagation_inner_break (cr_fuel : Nat) (st : State) (changed : List Nat)
    (current_package : Nat) :
    List Incompatibility → Option (Except Incompatibility (State × List Nat))
  | [] => Option.some (Except.ok (st, changed))
  | incompat :: rest =>
    if incompat.get current_package = Option.none then
      unit_propagation_inner_break cr_fuel st changed current_package rest
    else
      match st.partSolution.relation incompat with
      | Relation.satisfied =>
        match conflict_resolution cr_fuel st incompat with
        | Option.none => Option.none
        | Option.some (Except.error e) => Option.some (Except.error e)
        | Option.some (Except.ok ((package_almost, root_cause), st2)) =>
            Option.some (Except.ok
              (⟨st2.root_package, st2.root_version, st2.incompatibilities,
                st2.partSolution.add_derivation package_almost root_cause,
                st2.incompatibility_store⟩,
               [package_almost]))
      | Relation.almostSatisfied package_almost =>
          unit_propagation_inner_break cr_fuel
            ⟨st.root_package, st.root_version, st.incompatibilities,
              st.partSolution.add_derivation package_almost incompat,
              st.incompatibility_store⟩
            (changed ++ [package_almost]) current_package rest
      | _ => unit_propagation_inner_break cr_fuel st changed current_package rest

/-- The outer `loop` of `unit_propagation`, fueled: run the inner pass
over the reversed live set, then pop the next changed package (from the
back, as `Vec::pop` does) until none is left. -/
def unit_propagation_loop :
    Nat → Nat → State → Nat → List Nat → Option (Except Incompatibility State)
  | 0, _, _, _, _ => Option.none
  | fuel + 1, cr_fuel, st, current_package, changed =>
    match unit_propagation_inner cr_fuel st changed current_package
        st.incompatibilities.reverse with
    | Option.none => Option.none
    | Option.some (Except.error e) => Option.some (Except.error e)
    | Option.some (Except.ok (st2, changed2)) =>
      match changed2.getLast? with
      | Option.none => Option.some (Except.ok st2)
      | Option.some current => unit_propagation_loop fuel cr_fuel st2 current
          changed2.dropLast

/-- Unit propagation, the core mechanism of the solving algorithm. -/
def unit_propagation (fuel cr_fuel : Nat) (st : State) (package : Nat) :
    Option (Except Incompatibility State) :=
  unit_propagation_loop fuel cr_fuel st package [package]

end State


/-! ## Decidable equality for `Except` results -/

instance instDecEqExcept {α β : Type} [DecidableEq α] [DecidableEq β] :
    DecidableEq (Except α β) := fun x y =>
  match x, y with
  | Except.error a, Except.error b =>
      match decEq a b with
      | isTrue h => isTrue (by rw [h])
      | isFalse h => isFalse (fun hc => h (Except.error.inj hc))
  | Except.ok a, Except.ok b =>
      match decEq a b with
      | isTrue h => isTrue (by rw [h])
      | isFalse h => isFalse (fun hc => h (Except.ok.inj hc))
  | Except.error _, Except.ok _ => isFalse (fun hc => Except.noConfusion hc)
  | Except.ok _, Except.error _ => isFalse (fun hc => Except.noConfusion hc)

/-! ## Concrete fixtures used by counterexamples and witnesses -/

/-- A single-term incompatibility on package 1 at version 1. -/
def exA : Incompatibility :=
  ⟨1, [(1, Term.Positive (Range.exact 1))], Kind.noVersions 1 (Range.exact 1)⟩

/-- A two-term dependency incompatibility: package 1 at version 1 depends
on package 2 in `exact 5`. -/
def exB : Incompatibility :=
  ⟨2, [(1, Term.Positive (Range.exact 1)), (2, Term.Negative (Range.exact 5))],
    Kind.fromDependencyOf 1 (Range.exact 1) 2 (Range.exact 5)⟩

/-- A partial solution holding the single decision `1 @ 1`. -/
def exPS1 : PartialSolution :=
  PartialSolution.from_assignments [Assignment.decision 1 1]

/-- A state whose live set holds `exB` then `exA` (so the reversed walk
meets `exA`, which `exPS1` satisfies, before `exB`). -/
def exSt1 : State := ⟨0, 0, [exB, exA], exPS1, [exB, exA]⟩

/-- A cause incompatibility for package 1. -/
def exC3cause : Incompatibility :=
  ⟨0, [(1, Term.Positive (Range.exact 1))], Kind.noVersions 1 (Range.exact 1)⟩

/-- A partial solution with one derivation for package 1 (accumulated
term `Negative (exact 1)`) and nothing at all for package 0. -/
def exC3ps : PartialSolution :=
  PartialSolution.from_assignments [Assignment.derivation 1 exC3cause]

/-- The dependency incompatibility of candidate decision `0 @ 1`:
`{0: exact 1, 1: not exact 1}`. -/
def exC3inc : Incompatibility :=
  ⟨5, [(0, Term.Positive (Range.exact 1)), (1, Term.Negative (Range.exact 1))],
    Kind.fromDependencyOf 0 (Range.exact 1) 1 (Range.exact 1)⟩

/-- Projection of an inner-pass result to its changed-package list. -/
def upiChanged (r : Option (Except Incompatibility (State × List Nat))) :
    Option (List Nat) :=
  match r with
  | Option.some (Except.ok (_, changed)) => Option.some changed
  | _ => Option.none

/-- The store invariant of C9: every stored incompatibility's id is its
position in the store. -/
def StoreOK (st : State) : Prop :=
  ∀ i inc, st.incompatibility_store.get? i = Option.some inc → inc.id = i

/-- States reachable from `State.init` through `add_incompatibility`
(with a generator that uses the id it is given, as every incompatibility
constructor does) and successful `conflict_resolution` runs. -/
inductive Reachable : State → Prop where
  | init (root_package root_version : Nat) :
      Reachable (State.init root_package root_version)
  | add_incompat (st : State) (gen : Nat → Incompatibility) :
      Reachable st → (∀ n, (gen n).id = n) →
      Reachable (st.add_incompatibility gen)
  | conflict (st : State) (inc : Incompatibility) (fuel p : Nat)
      (rc : Incompatibility) (st2 : State) :
      Reachable st →
      State.conflict_resolution fuel st inc =
        Option.some (Except.ok ((p, rc), st2)) →
      Reachable st2

/-- Whether an assignment is a decision. -/
def Assignment.isDecision : Assignment → Bool
  | Assignment.decision _ _ => true
  | Assignment.derivation _ _ => false

/-- Number of decisions in a list of assignments. -/
def countDec (l : List Assignment) : Nat := (l.filter Assignment.isDecision).length

/-- The dated history produced by replaying assignments from decision
level `lvl`: each decision bumps the level, and every assignment is
stamped with the level in effect after it was added. -/
def datedFrom (lvl : Nat) : List Assignment → List (Nat × Assignment)
  | [] => []
  | a :: rest =>
    (if a.isDecision then lvl + 1 else lvl, a) ::
      datedFrom (if a.isDecision then lvl + 1 else lvl) rest

/-- Claim-side semantics of the satisfier search, following the spec's
wording: the intersection of the as-terms of the package's assignments in
a prefix of the assignment log. -/
def accumOf (pre : List (Nat × Assignment)) (p : Nat) : Term :=
  ((pre.filter (fun da => da.2.package == p)).map
    (fun da => da.2.as_term)).foldl Term.intersection Term.anyT

/-- Claim-side, following the spec's wording: a prefix of the log
satisfies the incompatibility when, for every package appearing in it,
the intersection of the as-terms of that package's assignments in the
prefix is a subset of the incompatibility's term for that package. -/
def SatByB (incompat : Incompatibility) (pre : List (Nat × Assignment)) : Bool :=
  incompat.package_terms.all (fun pt => (accumOf pre pt.1).subset_of pt.2)

/-- Invariant of the satisfier-search accumulator relative to the
claim-side semantics: its keys mirror the incompatibility's packages; a
`true` flag means the package's accumulated term over the processed
prefix is already a subset of its incompatibility term; a `false` flag
stores that accumulated term exactly, with the subset test failing; and
some flag is still `false`. -/
def SatAccumInv (incompat : Incompatibility) (pre : List (Nat × Assignment))
    (accum : List (Nat × (Bool × Term))) : Prop :=
  (accum.map (fun kv => kv.1) = incompat.package_terms.map (fun pt => pt.1)) ∧
  (∀ p tp, incompat.get p = Option.some tp →
    ∀ fl tm, lookupA accum p = Option.some (fl, tm) →
      (fl = true → (accumOf pre p).subset_of tp = true) ∧
      (fl = false → tm = accumOf pre p ∧ (accumOf pre p).subset_of tp = false)) ∧
  (∃ kv ∈ accum, kv.2.1 = false)

/-! ## Lemma development -/

namespace Range

theorem intersection_fuel_irrel :
    ∀ (n m : Nat) (s1 s2 : List Seg), s1.length + s2.length ≤ n →
      s1.length + s2.length ≤ m → intersection_fuel n s1 s2 = intersection_fuel m s1 s2 := by
  intro n
  induction n with
  | zero =>
    intro m s1 s2 h1 h2
    have hs1 : s1 = [] := by
      cases s1 with
      | nil => rfl
      | cons a l => simp at h1
    have hs2 : s2 = [] := by
      cases s2 with
      | nil => rfl
      | cons a l => subst hs1; simp at h1
    subst hs1; subst hs2
    cases m with
    | zero => rfl
    | succ m => rfl
  | succ n ih =>
    intro m s1 s2 h1 h2
    cases m with
    | zero =>
      have hs1 : s1 = [] := by
        cases s1 with
        | nil => rfl
        | cons a l => simp at h2
      have hs2 : s2 = [] := by
        cases s2 with
        | nil => rfl
        | cons a l => subst hs1; simp at h2
      subst hs1; subst hs2
      rfl
    | succ m =>
      rcases s1 with _ | ⟨⟨l1, lh⟩, ls⟩
      · rfl
      rcases s2 with _ | ⟨⟨r1, rh⟩, rs⟩
      · cases lh with
        | some l2 => rfl
        | none => rfl
      simp only [List.length_cons] at h1 h2
      cases lh with
      | some l2 =>
        cases rh with
        | some r2 =>
          simp only [intersection_fuel]
          split_ifs with hA hB hC
          · exact ih m ls _ (by simp; omega) (by simp; omega)
          · exact ih m _ rs (by simp; omega) (by simp; omega)
          · rw [ih m ls _ (by simp; omega) (by simp; omega)]
          · rw [ih m _ rs (by simp; omega) (by simp; omega)]
        | none =>
          simp only [intersection_fuel]
          split_ifs with hA hB
          · exact ih m ls _ (by simp; omega) (by simp; omega)
          · rfl
          · rfl
      | none =>
        cases rh with
        | some r2 =>
          simp only [intersection_fuel]
          split_ifs with hA hB
          · exact ih m _ rs (by simp; omega) (by simp; omega)
          · rfl
          · rfl
        | none => rfl

theorem interSeg_eq_fuel (n : Nat) (s1 s2 : List Seg) (h : s1.length + s2.length ≤ n) :
    intersection_segments s1 s2 = intersection_fuel n s1 s2 :=
  intersection_fuel_irrel (s1.length + s2.length) n s1 s2 (Nat.le_refl _) h

theorem interSeg_nil_left (s2 : List Seg) : intersection_segments [] s2 = [] := by
  cases s2 with
  | nil => rfl
  | cons a l => rfl

theorem interSeg_nil_right (s1 : List Seg) : intersection_segments s1 [] = [] := by
  cases s1 with
  | nil => rfl
  | cons a l =>
    obtain ⟨lo, hi⟩ := a
    cases hi with
    | none => rfl
    | some hi => rfl

theorem interSeg_ss (l1 l2 : Nat) (ls : List Seg) (r1 r2 : Nat) (rs : List Seg) :
    intersection_segments ((l1, Option.some l2) :: ls) ((r1, Option.some r2) :: rs) =
      if l2 ≤ r1 then intersection_segments ls ((r1, Option.some r2) :: rs)
      else if r2 ≤ l1 then intersection_segments ((l1, Option.some l2) :: ls) rs
      else if l2 < r2 then
        (max l1 r1, Option.some l2) :: intersection_segments ls ((r1, Option.some r2) :: rs)
      else
        (max l1 r1, Option.some r2) :: intersection_segments ((l1, Option.some l2) :: ls) rs := by
  rw [interSeg_eq_fuel (ls.length + rs.length + 1 + 1) _ _ (by simp; omega)]
  show (if l2 ≤ r1 then intersection_fuel (ls.length + rs.length + 1) ls ((r1, Option.some r2) :: rs)
      else if r2 ≤ l1 then
        intersection_fuel (ls.length + rs.length + 1) ((l1, Option.some l2) :: ls) rs
      else if l2 < r2 then
        (max l1 r1, Option.some l2) ::
          intersection_fuel (ls.length + rs.length + 1) ls ((r1, Option.some r2) :: rs)
      else
        (max l1 r1, Option.some r2) ::
          intersection_fuel (ls.length + rs.length + 1) ((l1, Option.some l2) :: ls) rs) = _
  rw [← interSeg_eq_fuel (ls.length + rs.length + 1) ls ((r1, Option.some r2) :: rs)
        (by simp; omega),
      ← interSeg_eq_fuel (ls.length + rs.length + 1) ((l1, Option.some l2) :: ls) rs
        (by simp; omega)]

theorem interSeg_sn (l1 l2 : Nat) (ls : List Seg) (r1 : Nat) (rs : List Seg) :
    intersection_segments ((l1, Option.some l2) :: ls) ((r1, Option.none) :: rs) =
      if l2 < r1 then intersection_segments ls ((r1, Option.none) :: rs)
      else if l2 = r1 then ls
      else (max l1 r1, Option.some l2) :: ls := by
  rw [interSeg_eq_fuel (ls.length + rs.length + 1 + 1) _ _ (by simp; omega)]
  show (if l2 < r1 then intersection_fuel (ls.length + rs.length + 1) ls ((r1, Option.none) :: rs)
      else if l2 = r1 then ls
      else (max l1 r1, Option.some l2) :: ls) = _
  rw [← interSeg_eq_fuel (ls.length + rs.length + 1) ls ((r1, Option.none) :: rs)
        (by simp; omega)]

theorem interSeg_ns (l1 : Nat) (ls : List Seg) (r1 r2 : Nat) (rs : List Seg) :
    intersection_segments ((l1, Option.none) :: ls) ((r1, Option.some r2) :: rs) =
      if r2 < l1 then intersection_segments ((l1, Option.none) :: ls) rs
      else if r2 = l1 then rs
      else (max l1 r1, Option.some r2) :: rs := by
  rw [interSeg_eq_fuel (ls.length + rs.length + 1 + 1) _ _ (by simp; omega)]
  show (if r2 < l1 then
        intersection_fuel (ls.length + rs.length + 1) ((l1, Option.none) :: ls) rs
      else if r2 = l1 then rs
      else (max l1 r1, Option.some r2) :: rs) = _
  rw [← interSeg_eq_fuel (ls.length + rs.length + 1) ((l1, Option.none) :: ls) rs
        (by simp; omega)]

theorem interSeg_nn (l1 : Nat) (ls : List Seg) (r1 : Nat) (rs : List Seg) :
    intersection_segments ((l1, Option.none) :: ls) ((r1, Option.none) :: rs) =
      [(max l1 r1, Option.none)] := rfl

theorem canonicalFrom_mono (b b' : Nat) (l : Range) (hb : b' ≤ b)
    (h : canonicalFrom b l = true) : canonicalFrom b' l = true := by
  cases l with
  | nil => rfl
  | cons s rest =>
    obtain ⟨lo, hi⟩ := s
    cases hi with
    | none =>
      simp only [canonicalFrom, Bool.and_eq_true, decide_eq_true_eq] at h ⊢
      exact ⟨by omega, h.2⟩
    | some hi =>
      simp only [canonicalFrom, Bool.and_eq_true, decide_eq_true_eq] at h ⊢
      exact ⟨⟨by omega, h.1.2⟩, h.2⟩

theorem contains_lt_bound (b v : Nat) (l : Range) (h : canonicalFrom b l = true)
    (hv : v < b) : contains l v = false := by
  cases l with
  | nil => rfl
  | cons s rest =>
    obtain ⟨lo, hi⟩ := s
    cases hi with
    | none =>
      simp only [canonicalFrom, Bool.and_eq_true, decide_eq_true_eq] at h
      simp only [contains, decide_eq_false_iff_not]
      omega
    | some hi =>
      simp only [canonicalFrom, Bool.and_eq_true, decide_eq_true_eq] at h
      simp only [contains]
      rw [if_pos]
      omega

theorem headLoAbove_of_canonicalFrom (b b' : Nat) (l : Range)
    (h : canonicalFrom b l = true) (hb : b' < b) : headLoAbove b' l := by
  cases l with
  | nil => trivial
  | cons s rest =>
    obtain ⟨lo, hi⟩ := s
    cases hi with
    | none =>
      simp only [canonicalFrom, Bool.and_eq_true, decide_eq_true_eq] at h
      simp only [headLoAbove]
      omega
    | some hi =>
      simp only [canonicalFrom, Bool.and_eq_true, decide_eq_true_eq] at h
      simp only [headLoAbove]
      omega

theorem canonicalFrom_negate_segments :
    ∀ (l : Range) (b start : Nat), canonicalFrom b l = true → headLoAbove start l →
      canonicalFrom start (negate_segments start l) = true
  | [], _, start, _, _ => by
      simp [negate_segments, canonicalFrom]
  | (lo, Option.some hi) :: rest, b, start, h, hs => by
      simp only [canonicalFrom, Bool.and_eq_true, decide_eq_true_eq] at h
      simp only [headLoAbove] at hs
      have hrest : canonicalFrom hi (negate_segments hi rest) = true :=
        canonicalFrom_negate_segments rest (hi + 1) hi h.2
          (headLoAbove_of_canonicalFrom (hi + 1) hi rest h.2 (by omega))
      simp only [negate_segments, canonicalFrom, Bool.and_eq_true, decide_eq_true_eq]
      exact ⟨⟨by omega, hs⟩,
        canonicalFrom_mono hi (lo + 1) (negate_segments hi rest) (by omega) hrest⟩
  | (lo, Option.none) :: rest, b, start, h, hs => by
      simp only [headLoAbove] at hs
      simp only [negate_segments, canonicalFrom, Bool.and_eq_true, decide_eq_true_eq]
      simp [hs]

theorem canonical_negate (r : Range) (h : canonical r = true) :
    canonical r.negate = true := by
  cases r with
  | nil => simp [negate, anyR, higher_than, canonical, canonicalFrom]
  | cons s rest =>
    obtain ⟨lo, hi⟩ := s
    cases hi with
    | none =>
      by_cases h0 : lo = 0
      · simp [negate, h0, noneR, canonical, canonicalFrom]
      · simp only [negate, if_neg h0, strictly_lower_than, if_neg h0]
        simp only [canonical, canonicalFrom, Bool.and_eq_true, decide_eq_true_eq]
        exact ⟨⟨by omega, by omega⟩, trivial⟩
    | some hi =>
      simp only [canonical, canonicalFrom, Bool.and_eq_true, decide_eq_true_eq] at h
      by_cases h0 : lo = 0
      · simp only [negate, if_pos h0, canonical]
        exact canonicalFrom_mono hi 0 _ (by omega)
          (canonicalFrom_negate_segments rest (hi + 1) hi h.2
            (headLoAbove_of_canonicalFrom (hi + 1) hi rest h.2 (by omega)))
      · simp only [negate, if_neg h0, canonical]
        exact canonicalFrom_negate_segments ((lo, Option.some hi) :: rest) 0 0
          (by simp only [canonicalFrom, Bool.and_eq_true, decide_eq_true_eq]
              exact ⟨⟨by omega, h.1.2⟩, h.2⟩)
          (by simp only [headLoAbove]; omega)

theorem contains_negate_segments :
    ∀ (l : Range) (b start v : Nat), canonicalFrom b l = true → headLoAbove start l →
      start ≤ v → contains (negate_segments start l) v = !(contains l v)
  | [], _, start, v, _, _, hv => by
      simp only [negate_segments, contains]
      simp [hv]
  | (lo, Option.some hi) :: rest, b, start, v, h, hs, hv => by
      simp only [canonicalFrom, Bool.and_eq_true, decide_eq_true_eq] at h
      simp only [headLoAbove] at hs
      simp only [negate_segments, contains]
      rw [if_neg (by omega)]
      by_cases hvlo : v < lo
      · rw [if_pos hvlo, if_pos hvlo]
        rfl
      · rw [if_neg hvlo, if_neg hvlo]
        by_cases hvhi : v < hi
        · rw [if_pos hvhi]
          have : contains (negate_segments hi rest) v = false :=
            contains_lt_bound hi v _
              (canonicalFrom_negate_segments rest (hi + 1) hi h.2
                (headLoAbove_of_canonicalFrom (hi + 1) hi rest h.2 (by omega)))
              hvhi
          simp [this]
        · rw [if_neg hvhi]
          exact contains_negate_segments rest (hi + 1) hi v h.2
            (headLoAbove_of_canonicalFrom (hi + 1) hi rest h.2 (by omega)) (by omega)
  | (lo, Option.none) :: rest, b, start, v, h, hs, hv => by
      simp only [headLoAbove] at hs
      simp only [negate_segments, contains]
      rw [if_neg (by omega)]
      by_cases hvlo : v < lo
      · rw [if_pos hvlo]
        simp [show ¬ (lo ≤ v) by omega]
      · rw [if_neg hvlo]
        simp [contains, show lo ≤ v by omega]

theorem canonicalFrom_cons_some (b lo hi : Nat) (rest : Range)
    (h : canonicalFrom b ((lo, Option.some hi) :: rest) = true) :
    b ≤ lo ∧ lo < hi ∧ canonicalFrom (hi + 1) rest = true := by
  simp only [canonicalFrom, Bool.and_eq_true, decide_eq_true_eq] at h
  exact ⟨h.1.1, h.1.2, h.2⟩

theorem canonicalFrom_cons_some_intro (b lo hi : Nat) (rest : Range)
    (h1 : b ≤ lo) (h2 : lo < hi) (h3 : canonicalFrom (hi + 1) rest = true) :
    canonicalFrom b ((lo, Option.some hi) :: rest) = true := by
  simp only [canonicalFrom, Bool.and_eq_true, decide_eq_true_eq]
  exact ⟨⟨h1, h2⟩, h3⟩

theorem canonicalFrom_cons_none (b lo : Nat) (rest : Range)
    (h : canonicalFrom b ((lo, Option.none) :: rest) = true) :
    b ≤ lo ∧ rest = [] := by
  simp only [canonicalFrom, Bool.and_eq_true, decide_eq_true_eq, List.isEmpty_iff] at h
  exact h

theorem canonicalFrom_inter_aux :
    ∀ (N : Nat) (s1 s2 : Range) (b1 b2 : Nat), s1.length + s2.length ≤ N →
      canonicalFrom b1 s1 = true → canonicalFrom b2 s2 = true →
      canonicalFrom (max b1 b2) (intersection_segments s1 s2) = true := by
  intro N
  induction N with
  | zero =>
    intro s1 s2 b1 b2 hN h1 h2
    have hs1 : s1 = [] := by
      cases s1 with
      | nil => rfl
      | cons a l => simp at hN
    subst hs1
    rw [interSeg_nil_left]
    rfl
  | succ N ih =>
    intro s1 s2 b1 b2 hN h1 h2
    rcases s1 with _ | ⟨⟨l1, lh⟩, ls⟩
    · rw [interSeg_nil_left]; rfl
    rcases s2 with _ | ⟨⟨r1, rh⟩, rs⟩
    · rw [interSeg_nil_right]; rfl
    simp only [List.length_cons] at hN
    cases lh with
    | some l2 =>
      obtain ⟨hb1, hlt1, hc1⟩ := canonicalFrom_cons_some b1 l1 l2 ls h1
      cases rh with
      | some r2 =>
        obtain ⟨hb2, hlt2, hc2⟩ := canonicalFrom_cons_some b2 r1 r2 rs h2
        rw [interSeg_ss]
        split_ifs with hA hB hC
        · exact canonicalFrom_mono _ _ _ (by omega)
            (ih ls _ (l2 + 1) b2 (by simp; omega) hc1 h2)
        · exact canonicalFrom_mono _ _ _ (by omega)
            (ih _ rs b1 (r2 + 1) (by simp; omega) h1 hc2)
        · exact canonicalFrom_cons_some_intro _ _ _ _ (by omega) (by omega)
            (canonicalFrom_mono _ _ _ (by omega)
              (ih ls _ (l2 + 1) b2 (by simp; omega) hc1 h2))
        · exact canonicalFrom_cons_some_intro _ _ _ _ (by omega) (by omega)
            (canonicalFrom_mono _ _ _ (by omega)
              (ih _ rs b1 (r2 + 1) (by simp; omega) h1 hc2))
      | none =>
        obtain ⟨hb2, hrs⟩ := canonicalFrom_cons_none b2 r1 rs h2
        rw [interSeg_sn]
        split_ifs with hA hB
        · exact canonicalFrom_mono _ _ _ (by omega)
            (ih ls _ (l2 + 1) b2 (by simp; omega) hc1 h2)
        · exact canonicalFrom_mono _ _ _ (by omega) hc1
        · exact canonicalFrom_cons_some_intro _ _ _ _ (by omega) (by omega)
            (canonicalFrom_mono _ _ _ (by omega) hc1)
    | none =>
      obtain ⟨hb1, hls⟩ := canonicalFrom_cons_none b1 l1 ls h1
      cases rh with
      | some r2 =>
        obtain ⟨hb2, hlt2, hc2⟩ := canonicalFrom_cons_some b2 r1 r2 rs h2
        rw [interSeg_ns]
        split_ifs with hA hB
        · exact canonicalFrom_mono _ _ _ (by omega)
            (ih _ rs b1 (r2 + 1) (by simp; omega) h1 hc2)
        · exact canonicalFrom_mono _ _ _ (by omega) hc2
        · exact canonicalFrom_cons_some_intro _ _ _ _ (by omega) (by omega)
            (canonicalFrom_mono _ _ _ (by omega) hc2)
      | none =>
        obtain ⟨hb2, hrs⟩ := canonicalFrom_cons_none b2 r1 rs h2
        rw [interSeg_nn]
        simp only [canonicalFrom, Bool.and_eq_true, decide_eq_true_eq]
        exact ⟨by omega, rfl⟩

theorem canonical_inter (r s : Range) (h1 : canonical r = true) (h2 : canonical s = true) :
    canonical (intersection r s) = true :=
  canonicalFrom_inter_aux (r.length + s.length) r s 0 0 (Nat.le_refl _) h1 h2

theorem contains_inter_aux :
    ∀ (N : Nat) (s1 s2 : Range) (b1 b2 v : Nat), s1.length + s2.length ≤ N →
      canonicalFrom b1 s1 = true → canonicalFrom b2 s2 = true →
      contains (intersection_segments s1 s2) v = (contains s1 v && contains s2 v) := by
  intro N
  induction N with
  | zero =>
    intro s1 s2 b1 b2 v hN h1 h2
    have hs1 : s1 = [] := by
      cases s1 with
      | nil => rfl
      | cons a l => simp at hN
    subst hs1
    rw [interSeg_nil_left]
    rfl
  | succ N ih =>
    intro s1 s2 b1 b2 v hN h1 h2
    rcases s1 with _ | ⟨⟨l1, lh⟩, ls⟩
    · rw [interSeg_nil_left]; rfl
    rcases s2 with _ | ⟨⟨r1, rh⟩, rs⟩
    · rw [interSeg_nil_right]
      simp [contains]
    simp only [List.length_cons] at hN
    cases lh with
    | some l2 =>
      obtain ⟨hb1, hlt1, hc1⟩ := canonicalFrom_cons_some b1 l1 l2 ls h1
      cases rh with
      | some r2 =>
        obtain ⟨hb2, hlt2, hc2⟩ := canonicalFrom_cons_some b2 r1 r2 rs h2
        rw [interSeg_ss]
        split_ifs with hA hB hC
        · -- l2 ≤ r1 : the left interval is dropped
          rw [ih ls _ (l2 + 1) b2 v (by simp; omega) hc1 h2]
          by_cases hv2 : v < l2
          · have hx : contains ls v = false :=
              contains_lt_bound (l2 + 1) v ls hc1 (by omega)
            have hy : contains ((r1, Option.some r2) :: rs) v = false := by
              simp only [contains]
              rw [if_pos (by omega)]
            rw [hx, hy]
            simp
          · have hx : contains ((l1, Option.some l2) :: ls) v = contains ls v := by
              simp only [contains]
              rw [if_neg (by omega), if_neg (by omega)]
            rw [hx]
        · -- r2 ≤ l1 : the right interval is dropped
          rw [ih _ rs b1 (r2 + 1) v (by simp; omega) h1 hc2]
          by_cases hv2 : v < r2
          · have hx : contains rs v = false :=
              contains_lt_bound (r2 + 1) v rs hc2 (by omega)
            have hy : contains ((l1, Option.some l2) :: ls) v = false := by
              simp only [contains]
              rw [if_pos (by omega)]
            rw [hx, hy]
            simp
          · have hx : contains ((r1, Option.some r2) :: rs) v = contains rs v := by
              simp only [contains]
              rw [if_neg (by omega), if_neg (by omega)]
            rw [hx]
        · -- overlap, left interval ends first
          have htail := ih ls _ (l2 + 1) b2 v (by simp; omega) hc1 h2
          show (if v < max l1 r1 then false
              else if v < l2 then true
              else contains (intersection_segments ls ((r1, Option.some r2) :: rs)) v) = _
          by_cases hvm : v < max l1 r1
          · rw [if_pos hvm]
            by_cases hvl : v < l1
            · have hx : contains ((l1, Option.some l2) :: ls) v = false := by
                simp only [contains]
                rw [if_pos hvl]
              rw [hx]
              simp
            · have hy : contains ((r1, Option.some r2) :: rs) v = false := by
                simp only [contains]
                rw [if_pos (by omega)]
              rw [hy]
              simp
          · rw [if_neg hvm]
            by_cases hv2 : v < l2
            · rw [if_pos hv2]
              have hx : contains ((l1, Option.some l2) :: ls) v = true := by
                simp only [contains]
                rw [if_neg (by omega), if_pos hv2]
              have hy : contains ((r1, Option.some r2) :: rs) v = true := by
                simp only [contains]
                rw [if_neg (by omega), if_pos (by omega)]
              rw [hx, hy]
              rfl
            · rw [if_neg hv2, htail]
              have hx : contains ((l1, Option.some l2) :: ls) v = contains ls v := by
                simp only [contains]
                rw [if_neg (by omega), if_neg (by omega)]
              rw [hx]
        · -- overlap, right interval ends first
          have htail := ih _ rs b1 (r2 + 1) v (by simp; omega) h1 hc2
          show (if v < max l1 r1 then false
              else if v < r2 then true
              else contains (intersection_segments ((l1, Option.some l2) :: ls) rs) v) = _
          by_cases hvm : v < max l1 r1
          · rw [if_pos hvm]
            by_cases hvl : v < l1
            · have hx : contains ((l1, Option.some l2) :: ls) v = false := by
                simp only [contains]
                rw [if_pos hvl]
              rw [hx]
              simp
            · have hy : contains ((r1, Option.some r2) :: rs) v = false := by
                simp only [contains]
                rw [if_pos (by omega)]
              rw [hy]
              simp
          · rw [if_neg hvm]
            by_cases hv2 : v < r2
            · rw [if_pos hv2]
              have hx : contains ((l1, Option.some l2) :: ls) v = true := by
                simp only [contains]
                rw [if_neg (by omega), if_pos (by omega)]
              have hy : contains ((r1, Option.some r2) :: rs) v = true := by
                simp only [contains]
                rw [if_neg (by omega), if_pos hv2]
              rw [hx, hy]
              rfl
            · rw [if_neg hv2, htail]
              have hy : contains ((r1, Option.some r2) :: rs) v = contains rs v := by
                simp only [contains]
                rw [if_neg (by omega), if_neg (by omega)]
              rw [hy]
      | none =>
        obtain ⟨hb2, hrs⟩ := canonicalFrom_cons_none b2 r1 rs h2
        rw [interSeg_sn]
        split_ifs with hA hB
        · -- l2 < r1 : left interval entirely below the unbounded right one
          rw [ih ls _ (l2 + 1) b2 v (by simp; omega) hc1 h2]
          by_cases hv2 : v < l2
          · have hx : contains ls v = false :=
              contains_lt_bound (l2 + 1) v ls hc1 (by omega)
            have hy : contains ((r1, Option.none) :: rs) v = false := by
              simp only [contains, decide_eq_false_iff_not]
              omega
            rw [hx, hy]
            simp
          · have hx : contains ((l1, Option.some l2) :: ls) v = contains ls v := by
              simp only [contains]
              rw [if_neg (by omega), if_neg (by omega)]
            rw [hx]
        · -- l2 = r1 : the remaining left segments flow through
          by_cases hv2 : v < l2
          · have hx : contains ls v = false :=
              contains_lt_bound (l2 + 1) v ls hc1 (by omega)
            have hy : contains ((r1, Option.none) :: rs) v = false := by
              simp only [contains, decide_eq_false_iff_not]
              omega
            rw [hx, hy]
            simp
          · have hx : contains ((l1, Option.some l2) :: ls) v = contains ls v := by
              simp only [contains]
              rw [if_neg (by omega), if_neg (by omega)]
            have hy : contains ((r1, Option.none) :: rs) v = true := by
              simp only [contains, decide_eq_true_eq]
              omega
            rw [hx, hy, Bool.and_true]
        · -- r1 < l2 : overlap with the unbounded right interval
          show (if v < max l1 r1 then false
              else if v < l2 then true
              else contains ls v) = _
          by_cases hvm : v < max l1 r1
          · rw [if_pos hvm]
            by_cases hvl : v < l1
            · have hx : contains ((l1, Option.some l2) :: ls) v = false := by
                simp only [contains]
                rw [if_pos hvl]
              rw [hx]
              simp
            · have hy : contains ((r1, Option.none) :: rs) v = false := by
                simp only [contains, decide_eq_false_iff_not]
                omega
              rw [hy]
              simp
          · rw [if_neg hvm]
            have hy : contains ((r1, Option.none) :: rs) v = true := by
              simp only [contains, decide_eq_true_eq]
              omega
            by_cases hv2 : v < l2
            · rw [if_pos hv2]
              have hx : contains ((l1, Option.some l2) :: ls) v = true := by
                simp only [contains]
                rw [if_neg (by omega), if_pos hv2]
              rw [hx, hy]
              rfl
            · rw [if_neg hv2]
              have hx : contains ((l1, Option.some l2) :: ls) v = contains ls v := by
                simp only [contains]
                rw [if_neg (by omega), if_neg (by omega)]
              rw [hx, hy, Bool.and_true]
    | none =>
      obtain ⟨hb1, hls⟩ := canonicalFrom_cons_none b1 l1 ls h1
      cases rh with
      | some r2 =>
        obtain ⟨hb2, hlt2, hc2⟩ := canonicalFrom_cons_some b2 r1 r2 rs h2
        rw [interSeg_ns]
        split_ifs with hA hB
        · -- r2 < l1
          rw [ih _ rs b1 (r2 + 1) v (by simp; omega) h1 hc2]
          by_cases hv2 : v < r2
          · have hx : contains rs v = false :=
              contains_lt_bound (r2 + 1) v rs hc2 (by omega)
            have hy : contains ((l1, Option.none) :: ls) v = false := by
              simp only [contains, decide_eq_false_iff_not]
              omega
            rw [hx, hy]
            simp
          · have hx : contains ((r1, Option.some r2) :: rs) v = contains rs v := by
              simp only [contains]
              rw [if_neg (by omega), if_neg (by omega)]
            rw [hx]
        · -- r2 = l1
          by_cases hv2 : v < r2
          · have hx : contains rs v = false :=
              contains_lt_bound (r2 + 1) v rs hc2 (by omega)
            have hy : contains ((l1, Option.none) :: ls) v = false := by
              simp only [contains, decide_eq_false_iff_not]
              omega
            rw [hx, hy]
            simp
          · have hx : contains ((r1, Option.some r2) :: rs) v = contains rs v := by
              simp only [contains]
              rw [if_neg (by omega), if_neg (by omega)]
            have hy : contains ((l1, Option.none) :: ls) v = true := by
              simp only [contains, decide_eq_true_eq]
              omega
            rw [hx, hy, Bool.true_and]
        · -- l1 < r2 : overlap with the unbounded left interval
          show (if v < max l1 r1 then false
              else if v < r2 then true
              else contains rs v) = _
          by_cases hvm : v < max l1 r1
          · rw [if_pos hvm]
            by_cases hvl : v < l1
            · have hx : contains ((l1, Option.none) :: ls) v = false := by
                simp only [contains, decide_eq_false_iff_not]
                omega
              rw [hx]
              simp
            · have hy : contains ((r1, Option.some r2) :: rs) v = false := by
                simp only [contains]
                rw [if_pos (by omega)]
              rw [hy]
              simp
          · rw [if_neg hvm]
            have hx : contains ((l1, Option.none) :: ls) v = true := by
              simp only [contains, decide_eq_true_eq]
              omega
            by_cases hv2 : v < r2
            · rw [if_pos hv2]
              have hy : contains ((r1, Option.some r2) :: rs) v = true := by
                simp only [contains]
                rw [if_neg (by omega), if_pos hv2]
              rw [hx, hy]
              rfl
            · rw [if_neg hv2]
              have hy : contains ((r1, Option.some r2) :: rs) v = contains rs v := by
                simp only [contains]
                rw [if_neg (by omega), if_neg (by omega)]
              rw [hx, hy, Bool.true_and]
      | none =>
        rw [interSeg_nn]
        have hiff : (max l1 r1 ≤ v) ↔ (l1 ≤ v ∧ r1 ≤ v) := by omega
        simp [contains, hiff, Bool.decide_and]

theorem contains_inter (r s : Range) (v : Nat) (h1 : canonical r = true)
    (h2 : canonical s = true) :
    contains (intersection r s) v = (contains r v && contains s v) :=
  contains_inter_aux (r.length + s.length) r s 0 0 v (Nat.le_refl _) h1 h2

theorem contains_head_lo (b lo : Nat) (hi : Option Nat) (rest : Range)
    (h : canonicalFrom b ((lo, hi) :: rest) = true) :
    contains ((lo, hi) :: rest) lo = true := by
  cases hi with
  | none => simp [contains]
  | some hi =>
    obtain ⟨_, hlt, _⟩ := canonicalFrom_cons_some b lo hi rest h
    simp only [contains]
    rw [if_neg (by omega), if_pos (by omega)]

theorem contains_lt_first (lo v : Nat) (hi : Option Nat) (rest : Range)
    (hv : v < lo) : contains ((lo, hi) :: rest) v = false := by
  cases hi with
  | none =>
    simp only [contains, decide_eq_false_iff_not]
    omega
  | some hi =>
    simp only [contains]
    rw [if_pos hv]

theorem canonical_ext :
    ∀ (r s : Range) (b1 b2 : Nat), canonicalFrom b1 r = true → canonicalFrom b2 s = true →
      (∀ v, contains r v = contains s v) → r = s
  | [], [], _, _, _, _, _ => rfl
  | [], (lo, hi) :: rest, b1, b2, h1, h2, hsem => by
      exfalso
      have hx := hsem lo
      rw [contains_head_lo b2 lo hi rest h2] at hx
      simp [contains] at hx
  | (lo, hi) :: rest, [], b1, b2, h1, h2, hsem => by
      exfalso
      have hx := hsem lo
      rw [contains_head_lo b1 lo hi rest h1] at hx
      simp [contains] at hx
  | (lo1, hi1) :: rest1, (lo2, hi2) :: rest2, b1, b2, h1, h2, hsem => by
      have hlo : lo1 = lo2 := by
        rcases Nat.lt_trichotomy lo1 lo2 with hlt | heq | hgt
        · exfalso
          have hx := hsem lo1
          rw [contains_head_lo b1 lo1 hi1 rest1 h1,
            contains_lt_first lo2 lo1 hi2 rest2 hlt] at hx
          simp [contains] at hx
        · exact heq
        · exfalso
          have hx := hsem lo2
          rw [contains_head_lo b2 lo2 hi2 rest2 h2,
            contains_lt_first lo1 lo2 hi1 rest1 hgt] at hx
          simp [contains] at hx
      subst hlo
      cases hi1 with
      | none =>
        cases hi2 with
        | none =>
          obtain ⟨_, he1⟩ := canonicalFrom_cons_none b1 lo1 rest1 h1
          obtain ⟨_, he2⟩ := canonicalFrom_cons_none b2 lo1 rest2 h2
          rw [he1, he2]
        | some y =>
          exfalso
          obtain ⟨_, hlt2, hc2⟩ := canonicalFrom_cons_some b2 lo1 y rest2 h2
          have hx := hsem y
          have hl : contains ((lo1, Option.none) :: rest1) y = true := by
            simp only [contains, decide_eq_true_eq]
            omega
          have hr : contains ((lo1, Option.some y) :: rest2) y = contains rest2 y := by
            simp only [contains]
            rw [if_neg (by omega), if_neg (by omega)]
          rw [hl, hr, contains_lt_bound (y + 1) y rest2 hc2 (by omega)] at hx
          simp [contains] at hx
      | some x =>
        obtain ⟨_, hlt1, hc1⟩ := canonicalFrom_cons_some b1 lo1 x rest1 h1
        cases hi2 with
        | none =>
          exfalso
          have hx := hsem x
          have hr : contains ((lo1, Option.none) :: rest2) x = true := by
            simp only [contains, decide_eq_true_eq]
            omega
          have hl : contains ((lo1, Option.some x) :: rest1) x = contains rest1 x := by
            simp only [contains]
            rw [if_neg (by omega), if_neg (by omega)]
          rw [hl, hr, contains_lt_bound (x + 1) x rest1 hc1 (by omega)] at hx
          simp [contains] at hx
        | some y =>
          obtain ⟨_, hlt2, hc2⟩ := canonicalFrom_cons_some b2 lo1 y rest2 h2
          have hxy : x = y := by
            rcases Nat.lt_trichotomy x y with hlt | heq | hgt
            · exfalso
              have hx := hsem x
              have hl : contains ((lo1, Option.some x) :: rest1) x = contains rest1 x := by
                simp only [contains]
                rw [if_neg (by omega), if_neg (by omega)]
              have hr : contains ((lo1, Option.some y) :: rest2) x = true := by
                simp only [contains]
                rw [if_neg (by omega), if_pos hlt]
              rw [hl, hr, contains_lt_bound (x + 1) x rest1 hc1 (by omega)] at hx
              simp [contains] at hx
            · exact heq
            · exfalso
              have hx := hsem y
              have hr : contains ((lo1, Option.some y) :: rest2) y = contains rest2 y := by
                simp only [contains]
                rw [if_neg (by omega), if_neg (by omega)]
              have hl : contains ((lo1, Option.some x) :: rest1) y = true := by
                simp only [contains]
                rw [if_neg (by omega), if_pos hgt]
              rw [hl, hr, contains_lt_bound (y + 1) y rest2 hc2 (by omega)] at hx
              simp [contains] at hx
          subst hxy
          have htails : rest1 = rest2 := by
            apply canonical_ext rest1 rest2 (x + 1) (x + 1) hc1 hc2
            intro v
            by_cases hv : v < x
            · rw [contains_lt_bound (x + 1) v rest1 hc1 (by omega),
                contains_lt_bound (x + 1) v rest2 hc2 (by omega)]
            · have hl : contains rest1 v = contains ((lo1, Option.some x) :: rest1) v := by
                simp only [contains]
                rw [if_neg (by omega), if_neg (by omega)]
              have hr : contains rest2 v = contains ((lo1, Option.some x) :: rest2) v := by
                simp only [contains]
                rw [if_neg (by omega), if_neg (by omega)]
              rw [hl, hr]
              exact hsem v
          rw [htails]

theorem contains_negate (r : Range) (v : Nat) (h : canonical r = true) :
    contains r.negate v = !(contains r v) := by
  cases r with
  | nil => simp [negate, anyR, higher_than, contains]
  | cons s rest =>
    obtain ⟨lo, hi⟩ := s
    cases hi with
    | none =>
      by_cases h0 : lo = 0
      · simp [negate, h0, noneR, contains]
      · simp only [negate, if_neg h0, strictly_lower_than, if_neg h0, contains]
        rw [if_neg (by omega)]
        by_cases hvlo : v < lo
        · rw [if_pos hvlo]
          simp [show ¬ (lo ≤ v) by omega]
        · rw [if_neg hvlo]
          simp [contains, show lo ≤ v by omega]
    | some hi =>
      simp only [canonical, canonicalFrom, Bool.and_eq_true, decide_eq_true_eq] at h
      by_cases h0 : lo = 0
      · simp only [negate, if_pos h0, contains]
        subst h0
        rw [if_neg (by omega)]
        by_cases hvhi : v < hi
        · rw [if_pos hvhi]
          have : contains (negate_segments hi rest) v = false :=
            contains_lt_bound hi v _
              (canonicalFrom_negate_segments rest (hi + 1) hi h.2
                (headLoAbove_of_canonicalFrom (hi + 1) hi rest h.2 (by omega)))
              hvhi
          simp [this]
        · rw [if_neg hvhi]
          exact contains_negate_segments rest (hi + 1) hi v h.2
            (headLoAbove_of_canonicalFrom (hi + 1) hi rest h.2 (by omega)) (by omega)
      · simp only [negate, if_neg h0]
        exact contains_negate_segments ((lo, Option.some hi) :: rest) 0 0 v
          (by simp only [canonicalFrom, Bool.and_eq_true, decide_eq_true_eq]
              exact ⟨⟨by omega, h.1.2⟩, h.2⟩)
          (by simp only [headLoAbove]; omega) (by omega)

theorem canonical_noneR : canonical noneR = true := rfl

theorem canonical_anyR : canonical anyR = true := by
  simp [anyR, higher_than, canonical, canonicalFrom]

theorem canonical_exact (v : Nat) : canonical (exact v) = true := by
  simp [exact, canonical, canonicalFrom]

theorem canonical_higher_than (v : Nat) : canonical (higher_than v) = true := by
  simp [higher_than, canonical, canonicalFrom]

theorem canonical_strictly_lower_than (v : Nat) :
    canonical (strictly_lower_than v) = true := by
  unfold strictly_lower_than
  split_ifs with h
  · rfl
  · simp [canonical, canonicalFrom]
    omega

theorem canonical_between (v1 v2 : Nat) : canonical (between v1 v2) = true := by
  unfold between
  split_ifs with h
  · simp [canonical, canonicalFrom]
    omega
  · rfl

theorem contains_anyR (v : Nat) : contains anyR v = true := by
  simp [anyR, higher_than, contains]

theorem canonical_union (r s : Range) (h1 : canonical r = true) (h2 : canonical s = true) :
    canonical (union r s) = true :=
  canonical_negate _ (canonical_inter _ _ (canonical_negate r h1) (canonical_negate s h2))

theorem contains_union (r s : Range) (v : Nat) (h1 : canonical r = true)
    (h2 : canonical s = true) :
    contains (union r s) v = (contains r v || contains s v) := by
  unfold union
  rw [contains_negate _ v (canonical_inter _ _ (canonical_negate r h1) (canonical_negate s h2)),
    contains_inter _ _ v (canonical_negate r h1) (canonical_negate s h2),
    contains_negate r v h1, contains_negate s v h2]
  cases contains r v <;> cases contains s v <;> rfl

theorem inter_comm (r s : Range) (h1 : canonical r = true) (h2 : canonical s = true) :
    intersection r s = intersection s r :=
  canonical_ext _ _ 0 0 (canonical_inter r s h1 h2) (canonical_inter s r h2 h1)
    (fun v => by rw [contains_inter r s v h1 h2, contains_inter s r v h2 h1, Bool.and_comm])

theorem inter_assoc (r s t : Range) (h1 : canonical r = true) (h2 : canonical s = true)
    (h3 : canonical t = true) :
    intersection (intersection r s) t = intersection r (intersection s t) :=
  canonical_ext _ _ 0 0
    (canonical_inter _ t (canonical_inter r s h1 h2) h3)
    (canonical_inter r _ h1 (canonical_inter s t h2 h3))
    (fun v => by
      rw [contains_inter _ t v (canonical_inter r s h1 h2) h3, contains_inter r s v h1 h2,
        contains_inter r _ v h1 (canonical_inter s t h2 h3), contains_inter s t v h2 h3,
        Bool.and_assoc])

theorem inter_self (r : Range) (h : canonical r = true) : intersection r r = r :=
  canonical_ext _ _ 0 0 (canonical_inter r r h h) h
    (fun v => by rw [contains_inter r r v h h, Bool.and_self])

theorem negate_negate (r : Range) (h : canonical r = true) : negate (negate r) = r :=
  canonical_ext _ _ 0 0 (canonical_negate _ (canonical_negate r h)) h
    (fun v => by
      rw [contains_negate _ v (canonical_negate r h), contains_negate r v h, Bool.not_not])

theorem inter_negate_self (r : Range) (h : canonical r = true) :
    intersection r (negate r) = noneR :=
  canonical_ext _ _ 0 0 (canonical_inter r _ h (canonical_negate r h)) rfl
    (fun v => by
      rw [contains_inter r _ v h (canonical_negate r h), contains_negate r v h]
      exact Bool.and_not_self _)

theorem negate_inter_self (r : Range) (h : canonical r = true) :
    intersection (negate r) r = noneR :=
  canonical_ext _ _ 0 0 (canonical_inter _ r (canonical_negate r h) h) rfl
    (fun v => by
      rw [contains_inter _ r v (canonical_negate r h) h, contains_negate r v h]
      exact Bool.not_and_self _)

theorem inter_anyR_left (r : Range) (h : canonical r = true) :
    intersection anyR r = r :=
  canonical_ext _ _ 0 0 (canonical_inter anyR r canonical_anyR h) h
    (fun v => by rw [contains_inter anyR r v canonical_anyR h, contains_anyR, Bool.true_and])

theorem union_comm (r s : Range) (h1 : canonical r = true) (h2 : canonical s = true) :
    union r s = union s r :=
  canonical_ext _ _ 0 0 (canonical_union r s h1 h2) (canonical_union s r h2 h1)
    (fun v => by rw [contains_union r s v h1 h2, contains_union s r v h2 h1, Bool.or_comm])

theorem union_assoc (r s t : Range) (h1 : canonical r = true) (h2 : canonical s = true)
    (h3 : canonical t = true) :
    union (union r s) t = union r (union s t) :=
  canonical_ext _ _ 0 0
    (canonical_union _ t (canonical_union r s h1 h2) h3)
    (canonical_union r _ h1 (canonical_union s t h2 h3))
    (fun v => by
      rw [contains_union _ t v (canonical_union r s h1 h2) h3, contains_union r s v h1 h2,
        contains_union r _ v h1 (canonical_union s t h2 h3), contains_union s t v h2 h3,
        Bool.or_assoc])

theorem negate_union (r s : Range) (h1 : canonical r = true) (h2 : canonical s = true) :
    negate (union r s) = intersection (negate r) (negate s) := by
  unfold union
  exact negate_negate _ (canonical_inter _ _ (canonical_negate r h1) (canonical_negate s h2))

end Range

namespace Term

theorem canonicalT_negate (t : Term) (h : canonicalT t = true) :
    canonicalT t.negate = true := by
  cases t <;> exact h

theorem canonicalT_inter (t1 t2 : Term) (h1 : canonicalT t1 = true)
    (h2 : canonicalT t2 = true) : canonicalT (t1.intersection t2) = true := by
  cases t1 with
  | Positive r1 =>
    cases t2 with
    | Positive r2 => exact Range.canonical_inter r1 r2 h1 h2
    | Negative r2 => exact Range.canonical_inter r1 _ h1 (Range.canonical_negate r2 h2)
  | Negative r1 =>
    cases t2 with
    | Positive r2 => exact Range.canonical_inter _ r2 (Range.canonical_negate r1 h1) h2
    | Negative r2 => exact Range.canonical_union r1 r2 h1 h2

theorem canonicalT_union (t1 t2 : Term) (h1 : canonicalT t1 = true)
    (h2 : canonicalT t2 = true) : canonicalT (t1.union t2) = true :=
  canonicalT_negate _
    (canonicalT_inter _ _ (canonicalT_negate t1 h1) (canonicalT_negate t2 h2))

theorem canonicalT_anyT : canonicalT anyT = true := rfl

theorem canonicalT_exactT (v : Nat) : canonicalT (exactT v) = true :=
  Range.canonical_exact v

theorem term_inter_comm (t1 t2 : Term) (h1 : canonicalT t1 = true)
    (h2 : canonicalT t2 = true) : t1.intersection t2 = t2.intersection t1 := by
  cases t1 with
  | Positive r1 =>
    cases t2 with
    | Positive r2 =>
      simp only [intersection]
      rw [Range.inter_comm r1 r2 h1 h2]
    | Negative r2 =>
      simp only [intersection]
      rw [Range.inter_comm r1 _ h1 (Range.canonical_negate r2 h2)]
  | Negative r1 =>
    cases t2 with
    | Positive r2 =>
      simp only [intersection]
      rw [Range.inter_comm _ r2 (Range.canonical_negate r1 h1) h2]
    | Negative r2 =>
      simp only [intersection]
      rw [Range.union_comm r1 r2 h1 h2]

theorem term_inter_assoc (t1 t2 t3 : Term) (h1 : canonicalT t1 = true)
    (h2 : canonicalT t2 = true) (h3 : canonicalT t3 = true) :
    (t1.intersection t2).intersection t3 = t1.intersection (t2.intersection t3) := by
  cases t1 with
  | Positive a =>
    cases t2 with
    | Positive b =>
      cases t3 with
      | Positive c =>
        simp only [intersection]
        rw [Range.inter_assoc a b c h1 h2 h3]
      | Negative c =>
        simp only [intersection]
        rw [Range.inter_assoc a b _ h1 h2 (Range.canonical_negate c h3)]
    | Negative b =>
      cases t3 with
      | Positive c =>
        simp only [intersection]
        rw [Range.inter_assoc a _ c h1 (Range.canonical_negate b h2) h3]
      | Negative c =>
        simp only [intersection]
        rw [Range.negate_union b c h2 h3,
          Range.inter_assoc a _ _ h1 (Range.canonical_negate b h2)
            (Range.canonical_negate c h3)]
  | Negative a =>
    cases t2 with
    | Positive b =>
      cases t3 with
      | Positive c =>
        simp only [intersection]
        rw [Range.inter_assoc _ b c (Range.canonical_negate a h1) h2 h3]
      | Negative c =>
        simp only [intersection]
        rw [Range.inter_assoc _ b _ (Range.canonical_negate a h1) h2
          (Range.canonical_negate c h3)]
    | Negative b =>
      cases t3 with
      | Positive c =>
        simp only [intersection]
        rw [Range.negate_union a b h1 h2,
          Range.inter_assoc _ _ c (Range.canonical_negate a h1)
            (Range.canonical_negate b h2) h3]
      | Negative c =>
        simp only [intersection]
        rw [Range.union_assoc a b c h1 h2 h3]

theorem term_subset_mono (a b c : Term) (ha : canonicalT a = true)
    (hb : canonicalT b = true) (hc : canonicalT c = true)
    (h : a.subset_of c = true) : (a.intersection b).subset_of c = true := by
  simp only [subset_of, beq_iff_eq] at h ⊢
  have key : (a.intersection b).intersection c = a.intersection b := by
    calc (a.intersection b).intersection c
        = a.intersection (b.intersection c) := term_inter_assoc a b c ha hb hc
      _ = a.intersection (c.intersection b) := by rw [term_inter_comm b c hb hc]
      _ = (a.intersection c).intersection b := (term_inter_assoc a c b ha hc hb).symm
      _ = a.intersection b := by rw [← h]
  exact key.symm

theorem term_subset_anyT_false (t : Term) (h : canonicalT t = true)
    (hne : t ≠ anyT) : anyT.subset_of t = false := by
  cases t with
  | Positive r =>
    simp only [anyT, subset_of, intersection, Range.noneR]
    have : Range.intersection (Range.negate []) r = r := by
      show Range.intersection (Range.negate Range.noneR) r = r
      exact Range.inter_anyR_left r h
    rw [this]
    rfl
  | Negative r =>
    simp only [anyT, subset_of, intersection, Range.noneR]
    have hu : Range.union [] r = r := by
      show Range.union Range.noneR r = r
      unfold Range.union
      have : Range.intersection (Range.negate Range.noneR) (Range.negate r)
          = Range.negate r :=
        Range.inter_anyR_left _ (Range.canonical_negate r h)
      rw [this, Range.negate_negate r h]
    rw [hu]
    have hr : r ≠ [] := by
      intro hc
      exact hne (by rw [anyT, Range.noneR, hc])
    simp [hr]

theorem term_negate_union_self (t : Term) (h : canonicalT t = true) :
    t.negate.union t = anyT := by
  cases t with
  | Positive r =>
    show ((Term.Positive r).intersection (Term.Negative r)).negate = anyT
    simp only [intersection]
    rw [Range.inter_negate_self r h]
    rfl
  | Negative r =>
    show ((Term.Negative r).intersection (Term.Positive r)).negate = anyT
    simp only [intersection]
    rw [Range.negate_inter_self r h]
    rfl

end Term

/-! ## Claim theorems -/

/-- C4: `is_terminal(root_package, root_version)` returns `true` iff the
incompatibility has no package terms, or it has exactly one package term
whose package equals the root package and whose term contains the root
version; with two or more package terms it returns `false`. -/
theorem C4_is_terminal (inc : Incompatibility) (root_package root_version : Nat) :
    (inc.is_terminal root_package root_version = true ↔
      (inc.package_terms = [] ∨
        ∃ p t, inc.package_terms = [(p, t)] ∧ p = root_package ∧
          t.containsT root_version = true)) ∧
    (2 ≤ inc.package_terms.length →
      inc.is_terminal root_package root_version = false) := by
  obtain ⟨id, pts, kind⟩ := inc
  rcases pts with _ | ⟨⟨p, t⟩, rest⟩
  · constructor
    · simp [Incompatibility.is_terminal]
    · intro h
      simp at h
  · rcases rest with _ | ⟨⟨q, u⟩, rest2⟩
    · constructor
      · constructor
        · intro h
          simp only [Incompatibility.is_terminal, Bool.and_eq_true, beq_iff_eq] at h
          exact Or.inr ⟨p, t, rfl, h.1, h.2⟩
        · intro h
          rcases h with h | ⟨p2, t2, heq, hp, hcon⟩
          · exact absurd h (by simp)
          · obtain ⟨he1, he2⟩ : p = p2 ∧ t = t2 := by
              constructor
              · exact congrArg (fun l => (l.headD (0, Term.anyT)).1) heq
              · exact congrArg (fun l => (l.headD (0, Term.anyT)).2) heq
            subst he1
            subst he2
            simp only [Incompatibility.is_terminal, Bool.and_eq_true, beq_iff_eq]
            exact ⟨hp, hcon⟩
      · intro h
        simp at h
    · constructor
      · simp [Incompatibility.is_terminal]
      · intro _
        simp [Incompatibility.is_terminal]

/-- C4 witness: concrete evaluations of the terminal test through
`C4_is_terminal`. -/
theorem C4_witness :
    exA.is_terminal 1 1 = true :=
  ((C4_is_terminal exA 1 1).1).mpr
    (Or.inr ⟨1, Term.Positive (Range.exact 1), rfl, rfl, by decide⟩)

/-- C10: `no_versions(id, package, term)` panics (here: is `none`) iff
the given term is negative; for a positive term the result maps exactly
the given package to the given positive term. -/
theorem C10_no_versions (id package : Nat) (term : Term) :
    ((Incompatibility.no_versions id package term = Option.none) ↔
      ∃ r, term = Term.Negative r) ∧
    (∀ r, term = Term.Positive r →
      Incompatibility.no_versions id package term =
        Option.some ⟨id, [(package, term)], Kind.noVersions package r⟩) := by
  cases term with
  | Positive r =>
    constructor
    · simp [Incompatibility.no_versions]
    · intro r2 h
      obtain rfl : r = r2 := Term.Positive.inj h
      rfl
  | Negative r =>
    constructor
    · simp [Incompatibility.no_versions]
    · intro r2 h
      exact absurd h (by simp)

/-- C10 witness: a concrete positive no-versions incompatibility built
through `C10_no_versions`. -/
theorem C10_witness :
    Incompatibility.no_versions 3 7 (Term.Positive (Range.exact 1)) =
      Option.some ⟨3, [(7, Term.Positive (Range.exact 1))],
        Kind.noVersions 7 (Range.exact 1)⟩ :=
  (C10_no_versions 3 7 (Term.Positive (Range.exact 1))).2 (Range.exact 1) rfl

/-- C3 counterexample: with the candidate decision `0 @ 1` and the new
dependency incompatibility `{0: exact 1, 1: not exact 1}`, over a partial
solution that has already derived `not exact 1` for package 1 and has no
assignment at all for package 0: no new incompatibility is Satisfied by
the partial solution (package 0 is absent from it, so the relation is
only AlmostSatisfied), yet `add_version` does NOT append the decision
(its check substitutes `exact 1` for package 0), refuting the claimed
"if and only if". -/
theorem C3_counterexample :
    exC3ps.add_version 0 1 [exC3inc] = exC3ps ∧
    exC3ps.add_version 0 1 [exC3inc] ≠ exC3ps.add_decision 0 1 ∧
    (∀ i ∈ [exC3inc], exC3ps.relation i ≠ Relation.satisfied) := by decide

/-- C3 (amended): in `add_version(package, version, new_incompatibilities)`
the decision is appended iff none of the new incompatibilities is
Satisfied *under the lookup that maps the candidate package to
`Positive(exact version)`* and every other package to its accumulated
term in the partial solution; when some new incompatibility is so
Satisfied, the partial solution is left unchanged. -/
theorem C3_add_version (ps : PartialSolution) (package version : Nat)
    (incs : List Incompatibility) :
    ((∀ i ∈ incs, i.relation (fun p =>
        if p = package then Option.some (Term.exactT version)
        else ps.memory.term_intersection_for_package p) ≠ Relation.satisfied) →
      ps.add_version package version incs = ps.add_decision package version) ∧
    ((∃ i ∈ incs, i.relation (fun p =>
        if p = package then Option.some (Term.exactT version)
        else ps.memory.term_intersection_for_package p) = Relation.satisfied) →
      ps.add_version package version incs = ps) := by
  constructor
  · intro h
    unfold PartialSolution.add_version
    rw [if_pos]
    simp only [List.all_eq_true, Bool.not_eq_true, Bool.not_eq_eq_eq_not,
      Bool.not_true, beq_eq_false_iff_ne, ne_eq]
    exact h
  · intro ⟨i, hi, hsat⟩
    unfold PartialSolution.add_version
    rw [if_neg]
    simp only [List.all_eq_true, not_forall]
    refine ⟨i, hi, ?_⟩
    simp [hsat]

/-- C3 witness: on the concrete counterexample data, the satisfied-side
branch of `C3_add_version` applies and leaves the partial solution
unchanged. -/
theorem C3_witness : exC3ps.add_version 0 1 [exC3inc] = exC3ps :=
  (C3_add_version exC3ps 0 1 [exC3inc]).2
    ⟨exC3inc, by decide, by decide⟩

/-- C7: for distinct packages `p1, p2, p3` and terms `t1, t2, t3` (the
pivot's term over a canonical range), the rule of resolution applied to
`{p1: t1, p2: ¬t2}` and `{p2: t2, p3: t3}` with pivot `p2` yields an
incompatibility whose package-terms map is exactly `{p1: t1, p3: t3}`:
the pivot's union term equals `any` and is omitted. -/
theorem C7_prior_cause (p1 p2 p3 : Nat) (t1 t2 t3 : Term) (k1 k2 : Kind)
    (id id1 id2 : Nat) (h12 : p1 ≠ p2) (h13 : p1 ≠ p3) (h23 : p2 ≠ p3)
    (hc : Term.canonicalT t2 = true) :
    ∃ res, Incompatibility.prior_cause id
        ⟨id1, [(p1, t1), (p2, t2.negate)], k1⟩
        ⟨id2, [(p2, t2), (p3, t3)], k2⟩ p2 = Option.some res ∧
      res.get p1 = Option.some t1 ∧ res.get p3 = Option.some t3 ∧
      (∀ q, q ≠ p1 → q ≠ p3 → res.get q = Option.none) := by
  have e1 : lookupA [(p1, t1), (p2, t2.negate)] p2 = Option.some t2.negate := by
    simp [lookupA, h12]
  have e2 : lookupA [(p2, t2), (p3, t3)] p2 = Option.some t2 := by
    simp [lookupA]
  have hb1 : (p1 != p2) = true := bne_iff_ne.mpr h12
  have hb3 : (p3 != p2) = true := bne_iff_ne.mpr (Ne.symm h23)
  have er1 : removeA [(p1, t1), (p2, t2.negate)] p2 = [(p1, t1)] := by
    simp [removeA, List.filter, hb1, bne_self_eq_false]
  have er2 : removeA [(p2, t2), (p3, t3)] p2 = [(p3, t3)] := by
    simp [removeA, List.filter, hb3, bne_self_eq_false]
  have eu : t2.negate.union t2 = Term.anyT := Term.term_negate_union_self t2 hc
  have emerge : Incompatibility.intersectionMaps [(p1, t1)] [(p3, t3)]
      = [(p1, t1), (p3, t3)] := by
    simp [Incompatibility.intersectionMaps, Incompatibility.mergeMaps, lookupA,
      h13, Ne.symm h13]
  refine ⟨⟨id, [(p1, t1), (p3, t3)], Kind.derivedFrom id1 id2⟩, ?_, ?_, ?_, ?_⟩
  · show Incompatibility.prior_cause id
        ⟨id1, [(p1, t1), (p2, t2.negate)], k1⟩
        ⟨id2, [(p2, t2), (p3, t3)], k2⟩ p2 = _
    unfold Incompatibility.prior_cause
    simp only [e1, e2, er1, er2, emerge, eu]
    simp
  · simp [Incompatibility.get, lookupA]
  · simp [Incompatibility.get, lookupA, h13]
  · intro q hq1 hq3
    simp [Incompatibility.get, lookupA, Ne.symm hq1, Ne.symm hq3]

/-- C7 witness: the rule of resolution evaluated at concrete distinct
packages and exact terms through `C7_prior_cause`. -/
theorem C7_witness :
    ∃ res, Incompatibility.prior_cause 9
        ⟨7, [(0, Term.exactT 0), (1, (Term.exactT 1).negate)], Kind.derivedFrom 0 0⟩
        ⟨8, [(1, Term.exactT 1), (2, Term.exactT 2)], Kind.derivedFrom 0 0⟩ 1 =
        Option.some res ∧
      res.get 0 = Option.some (Term.exactT 0) ∧
      res.get 2 = Option.some (Term.exactT 2) ∧
      (∀ q, q ≠ 0 → q ≠ 2 → res.get q = Option.none) :=
  C7_prior_cause 0 1 2 (Term.exactT 0) (Term.exactT 1) (Term.exactT 2)
    (Kind.derivedFrom 0 0) (Kind.derivedFrom 0 0) 9 7 8
    (by decide) (by decide) (by decide) (by decide)

/-- C8: every range produced by the constructors `none`, `any`, `exact`,
`higher_than`, `strictly_lower_than`, `between`, and every range produced
by `negate`, `intersection` or `union` of canonical ranges, satisfies the
canonical-form invariant (sorted, non-touching, non-empty segments, an
unbounded segment only in last position). -/
theorem C8_canonical_invariant (r s : Range) (v1 v2 : Nat)
    (hr : Range.canonical r = true) (hs : Range.canonical s = true) :
    Range.canonical Range.noneR = true ∧
    Range.canonical Range.anyR = true ∧
    Range.canonical (Range.exact v1) = true ∧
    Range.canonical (Range.higher_than v1) = true ∧
    Range.canonical (Range.strictly_lower_than v1) = true ∧
    Range.canonical (Range.between v1 v2) = true ∧
    Range.canonical (Range.negate r) = true ∧
    Range.canonical (Range.intersection r s) = true ∧
    Range.canonical (Range.union r s) = true :=
  ⟨Range.canonical_noneR, Range.canonical_anyR, Range.canonical_exact v1,
    Range.canonical_higher_than v1, Range.canonical_strictly_lower_than v1,
    Range.canonical_between v1 v2, Range.canonical_negate r hr,
    Range.canonical_inter r s hr hs, Range.canonical_union r s hr hs⟩

/-- C8 witness: the invariant evaluated on concrete canonical ranges
through `C8_canonical_invariant`. -/
theorem C8_witness :
    Range.canonical Range.noneR = true ∧
    Range.canonical Range.anyR = true ∧
    Range.canonical (Range.exact 3) = true ∧
    Range.canonical (Range.higher_than 3) = true ∧
    Range.canonical (Range.strictly_lower_than 3) = true ∧
    Range.canonical (Range.between 3 7) = true ∧
    Range.canonical (Range.negate (Range.exact 1)) = true ∧
    Range.canonical (Range.intersection (Range.exact 1) (Range.between 2 5)) = true ∧
    Range.canonical (Range.union (Range.exact 1) (Range.between 2 5)) = true :=
  C8_canonical_invariant (Range.exact 1) (Range.between 2 5) 3 7
    (by decide) (by decide)

/-- The id carried by a successful `prior_cause` is the id it was given. -/
theorem prior_cause_id (id : Nat) (a b : Incompatibility) (p : Nat)
    (pc : Incompatibility)
    (h : Incompatibility.prior_cause id a b p = Option.some pc) : pc.id = id := by
  unfold Incompatibility.prior_cause at h
  split at h
  · simp only [Option.some.injEq] at h
    rw [← h]
  · simp at h

/-- Pushing an entry whose id is the current length preserves the dense-id
invariant of a store. -/
theorem store_ok_push (l : List Incompatibility) (x : Incompatibility)
    (hok : ∀ i inc, l.get? i = Option.some inc → inc.id = i)
    (hx : x.id = l.length) :
    ∀ i inc, (l ++ [x]).get? i = Option.some inc → inc.id = i := by
  intro i inc h
  rcases Nat.lt_trichotomy i l.length with hlt | heq | hgt
  · rw [List.get?_append hlt] at h
    exact hok i inc h
  · subst heq
    rw [List.get?_concat_length] at h
    simp only [Option.some.injEq] at h
    rw [← h]
    exact hx
  · rw [List.get?_eq_none.mpr (by simp; omega)] at h
    exact absurd h (by simp)

/-- The conflict-resolution loop preserves the dense-id store invariant:
it only appends prior causes stamped with the current store length. -/
theorem crLoop_store :
    ∀ (fuel : Nat) (st : State) (cur : Incompatibility) (ch : Bool)
      (p : Nat) (rc : Incompatibility) (st2 : State),
      StoreOK st →
      State.conflict_resolution_loop fuel st cur ch =
        Option.some (Except.ok ((p, rc), st2)) →
      StoreOK st2 := by
  intro fuel
  induction fuel with
  | zero =>
    intro st cur ch p rc st2 hok h
    exact absurd h (by simp [State.conflict_resolution_loop])
  | succ fuel ih =>
    intro st cur ch p rc st2 hok h
    simp only [State.conflict_resolution_loop] at h
    split at h
    · simp at h
    · split at h
      · simp at h
      · split at h
        · simp only [Option.some.injEq, Except.ok.injEq, Prod.mk.injEq] at h
          obtain ⟨⟨_, _⟩, hst⟩ := h
          rw [← hst]
          exact hok
        · split at h
          · simp only [Option.some.injEq, Except.ok.injEq, Prod.mk.injEq] at h
            obtain ⟨⟨_, _⟩, hst⟩ := h
            rw [← hst]
            exact hok
          · split at h
            · simp at h
            · rename_i pc hpc
              refine ih ⟨st.root_package, st.root_version, st.incompatibilities,
                  st.partSolution, st.incompatibility_store ++ [pc]⟩ pc true p rc st2
                ?_ h
              exact store_ok_push st.incompatibility_store pc hok
                (prior_cause_id st.incompatibility_store.length cur _ _ pc hpc)

/-- C9: in every state reachable from `State.init` via
`add_incompatibility` and `conflict_resolution`, every incompatibility
stored at position `i` of the store has id `i`: ids are dense, unique
and monotonically increasing in creation order. -/
theorem C9_store_ids (st : State) (h : Reachable st) : StoreOK st := by
  induction h with
  | init rp rv =>
    intro i inc hi
    rcases i with _ | i
    · simp only [State.init, List.get?] at hi
      simp only [Option.some.injEq] at hi
      rw [← hi]
      rfl
    · rcases i <;> simp [State.init, List.get?] at hi
  | add_incompat st gen hr hgen ih =>
    exact store_ok_push st.incompatibility_store (gen st.incompatibility_store.length)
      ih (hgen _)
  | conflict st inc fuel p rc st2 hr hcr ih =>
    exact crLoop_store fuel st inc false p rc st2 ih hcr

/-- C9 witness: the invariant instantiated at the initial state through
`C9_store_ids`. -/
theorem C9_witness : (Incompatibility.not_root 0 0 0).id = 0 :=
  C9_store_ids (State.init 0 0) (Reachable.init 0 0) 0
    (Incompatibility.not_root 0 0 0) rfl

/-- C1 counterexample: in the state `exSt1` the newest live
incompatibility `exA` (mentioning the current package 1) is Satisfied,
conflict resolution succeeds, but the inner pass does NOT stop there: it
goes on to examine the older `exB`, pushing package 2 onto the changed
list (final changed list `[1, 2]`, not `[1]`), so the code differs from
the break semantics the claim describes. -/
theorem C1_counterexample :
    upiChanged (State.unit_propagation_inner 5 exSt1 [1] 1 [exA, exB]) =
        Option.some [1, 2] ∧
    upiChanged (State.unit_propagation_inner_break 5 exSt1 [1] 1 [exA, exB]) =
        Option.some [1] ∧
    exSt1.partSolution.relation exA = Relation.satisfied ∧
    State.unit_propagation_inner 5 exSt1 [1] 1 [exA, exB] ≠
      State.unit_propagation_inner_break 5 exSt1 [1] 1 [exA, exB] := by decide

/-- C1 (amended): during unit propagation, whenever a live
incompatibility that mentions the current package is Satisfied by the
partial solution, the inner pass runs conflict resolution (which has
already backtracked inside), replaces the changed set with exactly the
returned package, adds a derivation for that package whose cause is the
returned root-cause incompatibility — and then CONTINUES the inner
iteration over the remaining (older) live incompatibilities instead of
breaking out of it. -/
theorem C1_inner_pass (cr_fuel : Nat) (st : State) (changed : List Nat)
    (current_package : Nat) (incompat : Incompatibility)
    (rest : List Incompatibility)
    (hmention : incompat.get current_package ≠ Option.none)
    (hsat : st.partSolution.relation incompat = Relation.satisfied) :
    State.unit_propagation_inner cr_fuel st changed current_package
        (incompat :: rest) =
      match State.conflict_resolution cr_fuel st incompat with
      | Option.none => Option.none
      | Option.some (Except.error e) => Option.some (Except.error e)
      | Option.some (Except.ok ((package_almost, root_cause), st2)) =>
          State.unit_propagation_inner cr_fuel
            ⟨st2.root_package, st2.root_version, st2.incompatibilities,
              st2.partSolution.add_derivation package_almost root_cause,
              st2.incompatibility_store⟩
            [package_almost] current_package rest := by
  simp only [State.unit_propagation_inner]
  rw [if_neg hmention, hsat]

/-- C1 witness: the amended inner-pass behaviour instantiated on the
concrete state `exSt1` through `C1_inner_pass`. -/
theorem C1_witness :
    State.unit_propagation_inner 5 exSt1 [1] 1 (exA :: [exB]) =
      match State.conflict_resolution 5 exSt1 exA with
      | Option.none => Option.none
      | Option.some (Except.error e) => Option.some (Except.error e)
      | Option.some (Except.ok ((package_almost, root_cause), st2)) =>
          State.unit_propagation_inner 5
            ⟨st2.root_package, st2.root_version, st2.incompatibilities,
              st2.partSolution.add_derivation package_almost root_cause,
              st2.incompatibility_store⟩
            [package_almost] 1 [exB] :=
  C1_inner_pass 5 exSt1 [1] 1 exA [exB] (by decide) (by decide)

/-- Rewrite of `relationAux` over a satisfied head term. -/
theorem relationAux_cons_sat (terms : Nat → Option Term) (p : Nat) (t : Term)
    (rest : List (Nat × Term)) (acc : Relation)
    (h : Incompatibility.clsOf terms (p, t) = Option.some Term.Rel.satisfied) :
    Incompatibility.relationAux terms ((p, t) :: rest) acc =
      Incompatibility.relationAux terms rest acc := by
  simp only [Incompatibility.relationAux, h]

/-- Rewrite of `relationAux` over a contradicted head term. -/
theorem relationAux_cons_contra (terms : Nat → Option Term) (p : Nat) (t : Term)
    (rest : List (Nat × Term)) (acc : Relation)
    (h : Incompatibility.clsOf terms (p, t) = Option.some Term.Rel.contradicted) :
    Incompatibility.relationAux terms ((p, t) :: rest) acc =
      Relation.contradicted (p, t) := by
  simp only [Incompatibility.relationAux, h]

/-- Rewrite of `relationAux` over an inconclusive-or-absent head term. -/
theorem relationAux_cons_inc (terms : Nat → Option Term) (p : Nat) (t : Term)
    (rest : List (Nat × Term)) (acc : Relation)
    (h : Incompatibility.clsOf terms (p, t) = Option.none ∨
      Incompatibility.clsOf terms (p, t) = Option.some Term.Rel.inconclusive) :
    Incompatibility.relationAux terms ((p, t) :: rest) acc =
      Incompatibility.relationAux terms rest
        (if acc == Relation.satisfied then Relation.almostSatisfied p
         else Relation.inconclusive) := by
  rcases h with h | h <;> simp only [Incompatibility.relationAux, h]

/-- Accumulator updates of the inconclusive branch, reduced. -/
theorem acc_if_sat (p : Nat) :
    (if (Relation.satisfied == Relation.satisfied) = true
      then Relation.almostSatisfied p else Relation.inconclusive) =
      Relation.almostSatisfied p := rfl

/-- Accumulator update from `AlmostSatisfied`, reduced. -/
theorem acc_if_almost (q p : Nat) :
    (if (Relation.almostSatisfied q == Relation.satisfied) = true
      then Relation.almostSatisfied p else Relation.inconclusive) =
      Relation.inconclusive := rfl

/-- From an inconclusive accumulator the fold never reaches
`AlmostSatisfied`. -/
theorem relationAux_inconclusive_ne_almost (terms : Nat → Option Term) :
    ∀ (l : List (Nat × Term)) (p : Nat),
      Incompatibility.relationAux terms l Relation.inconclusive ≠
        Relation.almostSatisfied p := by
  intro l
  induction l with
  | nil =>
    intro p h
    simp [Incompatibility.relationAux] at h
  | cons e rest ih =>
    intro p
    obtain ⟨q, t⟩ := e
    rcases hc : Incompatibility.clsOf terms (q, t) with _ | rel
    · rw [relationAux_cons_inc terms q t rest _ (Or.inl hc)]
      exact ih p
    · cases rel
      · rw [relationAux_cons_sat terms q t rest _ hc]
        exact ih p
      · rw [relationAux_cons_contra terms q t rest _ hc]
        simp
      · rw [relationAux_cons_inc terms q t rest _ (Or.inr hc)]
        exact ih p

/-- From an `AlmostSatisfied q` accumulator the fold stays at
`AlmostSatisfied p` exactly when `p = q` and every remaining term is
satisfied. -/
theorem relationAux_almost_acc (terms : Nat → Option Term) :
    ∀ (l : List (Nat × Term)) (q p : Nat),
      Incompatibility.relationAux terms l (Relation.almostSatisfied q) =
          Relation.almostSatisfied p ↔
        (p = q ∧ ∀ e ∈ l, Incompatibility.clsOf terms e =
          Option.some Term.Rel.satisfied) := by
  intro l
  induction l with
  | nil =>
    intro q p
    simp only [Incompatibility.relationAux, List.not_mem_nil]
    constructor
    · intro h
      exact ⟨(Relation.almostSatisfied.inj h).symm, by intro e he; exact absurd he (by simp)⟩
    · intro ⟨h, _⟩
      rw [h]
  | cons e rest ih =>
    intro q p
    obtain ⟨r, t⟩ := e
    rcases hc : Incompatibility.clsOf terms (r, t) with _ | rel
    · rw [relationAux_cons_inc terms r t rest _ (Or.inl hc), acc_if_almost q r]
      constructor
      · intro h
        exact absurd h (relationAux_inconclusive_ne_almost terms rest p)
      · intro ⟨_, hall⟩
        have := hall (r, t) (List.mem_cons_self _ _)
        rw [hc] at this
        exact absurd this (by simp)
    · cases rel
      · rw [relationAux_cons_sat terms r t rest _ hc, ih]
        constructor
        · intro ⟨h1, h2⟩
          refine ⟨h1, ?_⟩
          intro e he
          rcases List.mem_cons.mp he with he | he
          · rw [he]
            exact hc
          · exact h2 e he
        · intro ⟨h1, h2⟩
          exact ⟨h1, fun e he => h2 e (List.mem_cons_of_mem _ he)⟩
      · rw [relationAux_cons_contra terms r t rest _ hc]
        constructor
        · intro h
          exact absurd h (by simp)
        · intro ⟨_, hall⟩
          have := hall (r, t) (List.mem_cons_self _ _)
          rw [hc] at this
          exact absurd this (by simp)
      · rw [relationAux_cons_inc terms r t rest _ (Or.inr hc), acc_if_almost q r]
        constructor
        · intro h
          exact absurd h (relationAux_inconclusive_ne_almost terms rest p)
        · intro ⟨_, hall⟩
          have := hall (r, t) (List.mem_cons_self _ _)
          rw [hc] at this
          exact absurd this (by simp)

/-- The fold yields `Satisfied` exactly when it starts there and every
term's looked-up relation is satisfied. -/
theorem relationAux_eq_sat (terms : Nat → Option Term) :
    ∀ (l : List (Nat × Term)) (acc : Relation),
      Incompatibility.relationAux terms l acc = Relation.satisfied ↔
        (acc = Relation.satisfied ∧ ∀ e ∈ l, Incompatibility.clsOf terms e =
          Option.some Term.Rel.satisfied) := by
  intro l
  induction l with
  | nil =>
    intro acc
    simp [Incompatibility.relationAux]
  | cons e rest ih =>
    intro acc
    obtain ⟨p, t⟩ := e
    rcases hc : Incompatibility.clsOf terms (p, t) with _ | rel
    · rw [relationAux_cons_inc terms p t rest _ (Or.inl hc), ih]
      constructor
      · intro ⟨ha, _⟩
        exfalso
        split_ifs at ha <;> simp at ha
      · intro ⟨_, hall⟩
        have := hall (p, t) (List.mem_cons_self _ _)
        rw [hc] at this
        exact absurd this (by simp)
    · cases rel
      · rw [relationAux_cons_sat terms p t rest _ hc, ih]
        constructor
        · intro ⟨ha, hall⟩
          refine ⟨ha, ?_⟩
          intro e he
          rcases List.mem_cons.mp he with he | he
          · rw [he]
            exact hc
          · exact hall e he
        · intro ⟨ha, hall⟩
          exact ⟨ha, fun e he => hall e (List.mem_cons_of_mem _ he)⟩
      · rw [relationAux_cons_contra terms p t rest _ hc]
        constructor
        · intro h
          exact absurd h (by simp)
        · intro ⟨_, hall⟩
          have := hall (p, t) (List.mem_cons_self _ _)
          rw [hc] at this
          exact absurd this (by simp)
      · rw [relationAux_cons_inc terms p t rest _ (Or.inr hc), ih]
        constructor
        · intro ⟨ha, _⟩
          exfalso
          split_ifs at ha <;> simp at ha
        · intro ⟨_, hall⟩
          have := hall (p, t) (List.mem_cons_self _ _)
          rw [hc] at this
          exact absurd this (by simp)

/-- The fold yields `Contradicted` exactly when some term's looked-up
relation is contradicted (for any non-contradicted accumulator). -/
theorem relationAux_eq_contra (terms : Nat → Option Term) :
    ∀ (l : List (Nat × Term)) (acc : Relation),
      (∀ pt, acc ≠ Relation.contradicted pt) →
      ((∃ pt, Incompatibility.relationAux terms l acc = Relation.contradicted pt) ↔
        ∃ e ∈ l, Incompatibility.clsOf terms e = Option.some Term.Rel.contradicted) := by
  intro l
  induction l with
  | nil =>
    intro acc hacc
    simp only [Incompatibility.relationAux, List.not_mem_nil]
    constructor
    · intro ⟨pt, hpt⟩
      exact absurd hpt (hacc pt)
    · intro ⟨e, he, _⟩
      exact absurd he (by simp)
  | cons e rest ih =>
    intro acc hacc
    obtain ⟨p, t⟩ := e
    rcases hc : Incompatibility.clsOf terms (p, t) with _ | rel
    · rw [relationAux_cons_inc terms p t rest _ (Or.inl hc)]
      rw [ih _ (by split_ifs <;> simp)]
      constructor
      · intro ⟨e, he, hce⟩
        exact ⟨e, List.mem_cons_of_mem _ he, hce⟩
      · intro ⟨e, he, hce⟩
        rcases List.mem_cons.mp he with he | he
        · rw [he, hc] at hce
          exact absurd hce (by simp)
        · exact ⟨e, he, hce⟩
    · cases rel
      · rw [relationAux_cons_sat terms p t rest _ hc]
        rw [ih _ hacc]
        constructor
        · intro ⟨e, he, hce⟩
          exact ⟨e, List.mem_cons_of_mem _ he, hce⟩
        · intro ⟨e, he, hce⟩
          rcases List.mem_cons.mp he with he | he
          · rw [he, hc] at hce
            exact absurd hce (by simp)
          · exact ⟨e, he, hce⟩
      · rw [relationAux_cons_contra terms p t rest _ hc]
        constructor
        · intro _
          exact ⟨(p, t), List.mem_cons_self _ _, hc⟩
        · intro _
          exact ⟨(p, t), rfl⟩
      · rw [relationAux_cons_inc terms p t rest _ (Or.inr hc)]
        rw [ih _ (by split_ifs <;> simp)]
        constructor
        · intro ⟨e, he, hce⟩
          exact ⟨e, List.mem_cons_of_mem _ he, hce⟩
        · intro ⟨e, he, hce⟩
          rcases List.mem_cons.mp he with he | he
          · rw [he, hc] at hce
            exact absurd hce (by simp)
          · exact ⟨e, he, hce⟩

/-- The fold from `Satisfied` yields `AlmostSatisfied p` exactly when the
term of `p` is inconclusive-or-absent and every other term is satisfied
(keys assumed distinct, as in a map). -/
theorem relationAux_sat_almost (terms : Nat → Option Term) :
    ∀ (l : List (Nat × Term)), (l.map (fun pt => pt.1)).Nodup → ∀ (p : Nat),
      (Incompatibility.relationAux terms l Relation.satisfied =
          Relation.almostSatisfied p ↔
        ((∃ t, (p, t) ∈ l ∧ (Incompatibility.clsOf terms (p, t) = Option.none ∨
            Incompatibility.clsOf terms (p, t) = Option.some Term.Rel.inconclusive)) ∧
          ∀ e ∈ l, e.1 ≠ p → Incompatibility.clsOf terms e =
            Option.some Term.Rel.satisfied)) := by
  intro l
  induction l with
  | nil =>
    intro _ p
    simp [Incompatibility.relationAux]
  | cons e rest ih =>
    intro hnodup p
    obtain ⟨q, t⟩ := e
    rw [List.map_cons, List.nodup_cons] at hnodup
    obtain ⟨hqnot, hnodup2⟩ := hnodup
    rcases hc : Incompatibility.clsOf terms (q, t) with _ | rel
    · rw [relationAux_cons_inc terms q t rest _ (Or.inl hc), acc_if_sat q,
        relationAux_almost_acc terms rest q p]
      constructor
      · intro ⟨hpq, hall⟩
        subst hpq
        refine ⟨⟨t, List.mem_cons_self _ _, Or.inl hc⟩, ?_⟩
        intro e he _
        rcases List.mem_cons.mp he with he | he
        · exfalso
          rename_i hne
          rw [he] at hne
          exact hne rfl
        · exact hall e he
      · intro ⟨⟨t2, ht2, _⟩, hall⟩
        have hpq : p = q := by
          by_contra hne
          have := hall (q, t) (List.mem_cons_self _ _) (fun h => hne h.symm)
          rw [hc] at this
          exact absurd this (by simp)
        subst hpq
        refine ⟨rfl, ?_⟩
        intro e he
        have hkey : e.1 ≠ p := by
          intro hk
          have hm : e.1 ∈ List.map (fun pt => pt.1) rest :=
            List.mem_map_of_mem (fun pt => pt.1) he
          rw [hk] at hm
          exact hqnot hm
        exact hall e (List.mem_cons_of_mem _ he) hkey
    · cases rel
      · rw [relationAux_cons_sat terms q t rest _ hc, ih hnodup2 p]
        constructor
        · intro ⟨⟨t2, ht2, hinc⟩, hall⟩
          refine ⟨⟨t2, List.mem_cons_of_mem _ ht2, hinc⟩, ?_⟩
          intro e he hne
          rcases List.mem_cons.mp he with he | he
          · rw [he]
            exact hc
          · exact hall e he hne
        · intro ⟨⟨t2, ht2, hinc⟩, hall⟩
          rcases List.mem_cons.mp ht2 with ht2 | ht2
          · exfalso
            rcases hinc with hinc | hinc <;> rw [ht2, hc] at hinc <;> simp at hinc
          · refine ⟨⟨t2, ht2, hinc⟩, ?_⟩
            intro e he hne
            exact hall e (List.mem_cons_of_mem _ he) hne
      · rw [relationAux_cons_contra terms q t rest _ hc]
        constructor
        · intro h
          exact absurd h (by simp)
        · intro ⟨⟨t2, ht2, hinc⟩, hall⟩
          exfalso
          by_cases hqp : q = p
          · subst hqp
            rcases List.mem_cons.mp ht2 with ht2 | ht2
            · rcases hinc with hinc | hinc <;> rw [ht2, hc] at hinc <;> simp at hinc
            · have hm := List.mem_map_of_mem (fun pt => pt.1) ht2
              exact hqnot hm
          · have := hall (q, t) (List.mem_cons_self _ _) hqp
            rw [hc] at this
            simp at this
      · rw [relationAux_cons_inc terms q t rest _ (Or.inr hc), acc_if_sat q,
        relationAux_almost_acc terms rest q p]
        constructor
        · intro ⟨hpq, hall⟩
          subst hpq
          refine ⟨⟨t, List.mem_cons_self _ _, Or.inr hc⟩, ?_⟩
          intro e he hne
          rcases List.mem_cons.mp he with he | he
          · exfalso
            rw [he] at hne
            exact hne rfl
          · exact hall e he
        · intro ⟨⟨t2, ht2, _⟩, hall⟩
          have hpq : p = q := by
            by_contra hne
            have := hall (q, t) (List.mem_cons_self _ _) (fun h => hne h.symm)
            rw [hc] at this
            exact absurd this (by simp)
          subst hpq
          refine ⟨rfl, ?_⟩
          intro e he
          have hkey : e.1 ≠ p := by
            intro hk
            have hm : e.1 ∈ List.map (fun pt => pt.1) rest :=
              List.mem_map_of_mem (fun pt => pt.1) he
            rw [hk] at hm
            exact hqnot hm
          exact hall e (List.mem_cons_of_mem _ he) hkey

/-- C6: `Incompatibility::relation` returns Satisfied when every term of
the incompatibility is Satisfied by the looked-up term; Contradicted when
some term is Contradicted; AlmostSatisfied(p) when exactly one package p
is Inconclusive or absent from the lookup and every other term is
Satisfied; and Inconclusive otherwise — a package absent from the lookup
being treated exactly like an Inconclusive relation (`clsOf` is `none`). -/
theorem C6_relation (inc : Incompatibility) (terms : Nat → Option Term)
    (hnodup : (inc.package_terms.map (fun pt => pt.1)).Nodup) :
    (inc.relation terms = Relation.satisfied ↔
      ∀ e ∈ inc.package_terms,
        Incompatibility.clsOf terms e = Option.some Term.Rel.satisfied) ∧
    ((∃ pt, inc.relation terms = Relation.contradicted pt) ↔
      ∃ e ∈ inc.package_terms,
        Incompatibility.clsOf terms e = Option.some Term.Rel.contradicted) ∧
    (∀ p, inc.relation terms = Relation.almostSatisfied p ↔
      ((∃ t, (p, t) ∈ inc.package_terms ∧
          (Incompatibility.clsOf terms (p, t) = Option.none ∨
            Incompatibility.clsOf terms (p, t) = Option.some Term.Rel.inconclusive)) ∧
        ∀ e ∈ inc.package_terms, e.1 ≠ p →
          Incompatibility.clsOf terms e = Option.some Term.Rel.satisfied)) ∧
    (inc.relation terms = Relation.inconclusive ↔
      (¬ (∀ e ∈ inc.package_terms,
          Incompatibility.clsOf terms e = Option.some Term.Rel.satisfied) ∧
       ¬ (∃ e ∈ inc.package_terms,
          Incompatibility.clsOf terms e = Option.some Term.Rel.contradicted) ∧
       ¬ ∃ p, ((∃ t, (p, t) ∈ inc.package_terms ∧
            (Incompatibility.clsOf terms (p, t) = Option.none ∨
              Incompatibility.clsOf terms (p, t) = Option.some Term.Rel.inconclusive)) ∧
          ∀ e ∈ inc.package_terms, e.1 ≠ p →
            Incompatibility.clsOf terms e = Option.some Term.Rel.satisfied))) := by
  have hA : inc.relation terms = Relation.satisfied ↔
      ∀ e ∈ inc.package_terms,
        Incompatibility.clsOf terms e = Option.some Term.Rel.satisfied := by
    rw [Incompatibility.relation, relationAux_eq_sat]
    simp
  have hB : (∃ pt, inc.relation terms = Relation.contradicted pt) ↔
      ∃ e ∈ inc.package_terms,
        Incompatibility.clsOf terms e = Option.some Term.Rel.contradicted := by
    simp only [Incompatibility.relation]
    exact relationAux_eq_contra terms inc.package_terms Relation.satisfied
      (by intro pt; simp)
  have hC : ∀ p, inc.relation terms = Relation.almostSatisfied p ↔
      ((∃ t, (p, t) ∈ inc.package_terms ∧
          (Incompatibility.clsOf terms (p, t) = Option.none ∨
            Incompatibility.clsOf terms (p, t) = Option.some Term.Rel.inconclusive)) ∧
        ∀ e ∈ inc.package_terms, e.1 ≠ p →
          Incompatibility.clsOf terms e = Option.some Term.Rel.satisfied) := by
    intro p
    simp only [Incompatibility.relation]
    exact relationAux_sat_almost terms inc.package_terms hnodup p
  refine ⟨hA, hB, hC, ?_⟩
  constructor
  · intro hv
    refine ⟨?_, ?_, ?_⟩
    · intro h
      have := hA.mpr h
      rw [hv] at this
      exact absurd this (by simp)
    · intro h
      obtain ⟨pt, hpt⟩ := hB.mpr h
      rw [hv] at hpt
      exact absurd hpt (by simp)
    · intro ⟨p, hp⟩
      have := (hC p).mpr hp
      rw [hv] at this
      exact absurd this (by simp)
  · intro ⟨hna, hnb, hnc⟩
    rcases hv : inc.relation terms with _ | pt | p | _
    · exact absurd (hA.mp hv) hna
    · exact absurd (hB.mp ⟨pt, hv⟩) hnb
    · exact absurd ⟨p, (hC p).mp hv⟩ hnc
    · rfl

/-- C6 witness: with an empty lookup the single-term incompatibility
`exA` is AlmostSatisfied on its package, through `C6_relation`. -/
theorem C6_witness :
    exA.relation (fun _ => Option.none) = Relation.almostSatisfied 1 :=
  ((C6_relation exA (fun _ => Option.none) (by decide)).2.2.1 1).mpr
    ⟨⟨Term.Positive (Range.exact 1), by decide, Or.inl (by decide)⟩, by decide⟩

theorem countDec_cons (a : Assignment) (l : List Assignment) :
    countDec (a :: l) = (if a.isDecision then 1 else 0) + countDec l := by
  cases ha : a.isDecision <;>
    simp [countDec, List.filter, ha] <;> omega

theorem countDec_nil : countDec [] = 0 := rfl

theorem addAll_spec :
    ∀ (l : List Assignment) (ps : PartialSolution),
      (l.foldl PartialSolution.add_assignment ps).history =
        ps.history ++ datedFrom ps.decision_level l ∧
      (l.foldl PartialSolution.add_assignment ps).decision_level =
        ps.decision_level + countDec l := by
  intro l
  induction l with
  | nil =>
    intro ps
    simp [datedFrom, countDec_nil]
  | cons a rest ih =>
    intro ps
    rw [List.foldl_cons]
    obtain ⟨ih1, ih2⟩ := ih (ps.add_assignment a)
    have hlvl : (ps.add_assignment a).decision_level =
        (if a.isDecision then ps.decision_level + 1 else ps.decision_level) := by
      cases a <;> simp [PartialSolution.add_assignment, Assignment.isDecision]
    have hhist : (ps.add_assignment a).history =
        ps.history ++ [((if a.isDecision then ps.decision_level + 1
          else ps.decision_level), a)] := by
      cases a <;> simp [PartialSolution.add_assignment, Assignment.isDecision]
    constructor
    · rw [ih1, hhist, hlvl, datedFrom]
      simp
    · rw [ih2, hlvl, countDec_cons]
      split_ifs <;> omega

theorem from_assignments_history (l : List Assignment) :
    (PartialSolution.from_assignments l).history = datedFrom 0 l := by
  have := (addAll_spec l PartialSolution.emptyPS).1
  simpa [PartialSolution.from_assignments, PartialSolution.emptyPS] using this

theorem from_assignments_level (l : List Assignment) :
    (PartialSolution.from_assignments l).decision_level = countDec l := by
  have := (addAll_spec l PartialSolution.emptyPS).2
  simpa [PartialSolution.from_assignments, PartialSolution.emptyPS] using this

theorem datedFrom_assignments :
    ∀ (l : List Assignment) (lvl : Nat),
      (datedFrom lvl l).map (fun da => da.2) = l := by
  intro l
  induction l with
  | nil => intro lvl; rfl
  | cons a rest ih =>
    intro lvl
    rw [datedFrom, List.map_cons, ih]

theorem datedFrom_length (l : List Assignment) :
    ∀ (lvl : Nat), (datedFrom lvl l).length = l.length := by
  induction l with
  | nil => intro lvl; rfl
  | cons a rest ih =>
    intro lvl
    rw [datedFrom, List.length_cons, List.length_cons, ih]

theorem datedFrom_get :
    ∀ (l : List Assignment) (lvl j : Nat) (da : Nat × Assignment),
      (datedFrom lvl l).get? j = Option.some da →
        da.1 = lvl + countDec (l.take (j + 1)) := by
  intro l
  induction l with
  | nil =>
    intro lvl j da h
    simp [datedFrom] at h
  | cons a rest ih =>
    intro lvl j da h
    rcases j with _ | j
    · rw [datedFrom] at h
      simp only [List.get?] at h
      simp only [Option.some.injEq] at h
      rw [← h]
      rw [List.take_succ_cons, countDec_cons]
      cases ha : a.isDecision <;> simp [ha, countDec_nil] <;> omega
    · rw [datedFrom] at h
      simp only [List.get?] at h
      have := ih (if a.isDecision then lvl + 1 else lvl) j da h
      rw [this, List.take_succ_cons, countDec_cons]
      cases ha : a.isDecision <;> simp [ha] <;> omega

theorem countDec_take_mono (l : List Assignment) (n m : Nat) (h : n ≤ m) :
    countDec (l.take n) ≤ countDec (l.take m) := by
  have heq : l.take n = (l.take m).take n := by
    rw [List.take_take, Nat.min_eq_left h]
  simp only [countDec]
  rw [heq]
  exact List.Sublist.length_le
    (List.Sublist.filter _ (List.take_sublist n (l.take m)))

theorem rposition_none {α : Type} (p : α → Bool) :
    ∀ (l : List α), rposition p l = Option.none → ∀ a ∈ l, p a = false := by
  intro l
  induction l with
  | nil =>
    intro _ a ha
    exact absurd ha (by simp)
  | cons b rest ih =>
    intro h a ha
    rcases hr : rposition p rest with _ | i
    · rw [rposition, hr] at h
      rcases List.mem_cons.mp ha with hab | ham
      · subst hab
        by_cases hp : p a = true
        · simp [hp] at h
        · simpa using hp
      · exact ih hr a ham
    · rw [rposition, hr] at h
      simp at h

theorem rposition_spec {α : Type} (p : α → Bool) :
    ∀ (l : List α) (i : Nat), rposition p l = Option.some i →
      i < l.length ∧ (∃ a, l.get? i = Option.some a ∧ p a = true) ∧
        ∀ j a, i < j → l.get? j = Option.some a → p a = false := by
  intro l
  induction l with
  | nil =>
    intro i h
    simp [rposition] at h
  | cons b rest ih =>
    intro i h
    rcases hr : rposition p rest with _ | k
    · rw [rposition, hr] at h
      by_cases hp : p b = true
      · simp [hp] at h
        subst h
        refine ⟨by simp, ⟨b, rfl, hp⟩, ?_⟩
        intro j a hj hget
        rcases j with _ | j
        · omega
        · simp only [List.get?] at hget
          exact rposition_none p rest hr a (List.get?_mem hget)
      · simp [hp] at h
    · rw [rposition, hr] at h
      simp only [Option.some.injEq] at h
      subst h
      obtain ⟨hlt, ⟨a, hget, hpa⟩, hmax⟩ := ih k hr
      refine ⟨by simp; omega, ⟨a, by simpa using hget, hpa⟩, ?_⟩
      intro j c hj hget2
      rcases j with _ | j
      · omega
      · simp only [List.get?] at hget2
        exact hmax j c (by omega) hget2

theorem rposition_isSome {α : Type} (p : α → Bool) (l : List α) (a : α)
    (ha : a ∈ l) (hp : p a = true) : (rposition p l).isSome = true := by
  rcases h : rposition p l with _ | i
  · rw [rposition_none p l h a ha] at hp
    exact absurd hp (by simp)
  · rfl

/-- C2 (counterexample): backtracking to a level that never occurs in the
history (here level 5, when the only decision produced level 1) leaves the
decision-level counter different from the requested level, contradicting
the claim that the counter always equals `L` afterwards.  The code keeps
the whole history (`unwrap_or(len - 1)`) in that case. -/
theorem C2_counterexample :
    ((PartialSolution.from_assignments
      [Assignment.decision 1 1]).backtrack 5).decision_level ≠ 5 := by
  decide

/-- C2 (amended): for every decision level `L` that occurs in the history,
`backtrack L` truncates the history to a prefix (cut after the last
assignment dated `L`) in which every assignment has decision level ≤ L and
after which every assignment has decision level > L — i.e. the longest
prefix whose final assignment has decision level ≤ L — and the resulting
partial solution (decision-level counter and per-package memory alike) is
a fresh replay, from empty, of that surviving prefix; in particular the
decision-level counter equals `L`. -/
theorem C2_backtrack (l : List Assignment) (L : Nat)
    (hocc : ∃ da ∈ (PartialSolution.from_assignments l).history, da.1 = L) :
    ∃ k, k ≤ (PartialSolution.from_assignments l).history.length ∧
      (PartialSolution.from_assignments l).backtrack L =
        PartialSolution.from_assignments
          (((PartialSolution.from_assignments l).history.take k).map
            (fun da => da.2)) ∧
      (∀ da ∈ (PartialSolution.from_assignments l).history.take k,
        da.1 ≤ L) ∧
      (∀ j da, k ≤ j →
        (PartialSolution.from_assignments l).history.get? j =
          Option.some da → L < da.1) ∧
      ((PartialSolution.from_assignments l).backtrack L).decision_level
        = L := by
  have hh : (PartialSolution.from_assignments l).history = datedFrom 0 l :=
    from_assignments_history l
  obtain ⟨da0, hmem0, hL0⟩ := hocc
  have hsome : (rposition (fun da => da.1 == L)
      (PartialSolution.from_assignments l).history).isSome = true :=
    rposition_isSome _ _ da0 hmem0 (by simp [hL0])
  obtain ⟨pos, hpos⟩ : ∃ pos, rposition (fun da => da.1 == L)
      (PartialSolution.from_assignments l).history = Option.some pos := by
    rcases h : rposition (fun da => da.1 == L)
        (PartialSolution.from_assignments l).history with _ | pos
    · rw [h] at hsome
      simp at hsome
    · exact ⟨pos, h⟩
  obtain ⟨hlt, ⟨daP, hgetP, hpP⟩, hmax⟩ := rposition_spec _ _ pos hpos
  have hdaPL : daP.1 = L := by simpa using hpP
  have hgetP2 : (datedFrom 0 l).get? pos = Option.some daP := by
    rw [← hh]
    exact hgetP
  have hLc : L = countDec (l.take (pos + 1)) := by
    have := datedFrom_get l 0 pos daP hgetP2
    omega
  have hb : (PartialSolution.from_assignments l).backtrack L =
      PartialSolution.from_assignments
        (((PartialSolution.from_assignments l).history.take (pos + 1)).map
          (fun da => da.2)) := by
    simp only [PartialSolution.backtrack]
    rw [hpos]
    rfl
  refine ⟨pos + 1, by omega, hb, ?_, ?_, ?_⟩
  · intro da hda
    obtain ⟨j, hj⟩ := List.mem_iff_get?.mp hda
    have hjlt : j < pos + 1 := by
      have hj2 := (List.get?_eq_some.mp hj).1
      have hlen := List.length_take (pos + 1)
        (PartialSolution.from_assignments l).history
      omega
    rw [List.get?_take hjlt] at hj
    rw [hh] at hj
    have hdj := datedFrom_get l 0 j da hj
    have hmono := countDec_take_mono l (j + 1) (pos + 1) (by omega)
    omega
  · intro j da hkj hget
    have hne : (fun da => da.1 == L) da = false := hmax j da (by omega) hget
    have hgt : da.1 ≠ L := by simpa using hne
    have hget2 : (datedFrom 0 l).get? j = Option.some da := by
      rw [← hh]
      exact hget
    have hdj := datedFrom_get l 0 j da hget2
    have hmono := countDec_take_mono l (pos + 1) (j + 1) (by omega)
    omega
  · rw [hb, from_assignments_level]
    have hmapeq : (((PartialSolution.from_assignments l).history.take
        (pos + 1)).map (fun da => da.2)) = l.take (pos + 1) := by
      rw [hh, List.map_take, datedFrom_assignments]
    rw [hmapeq]
    omega

/-- C2 witness: the amended theorem applied to the one-decision history
and level 1, whose occurrence hypothesis holds by computation. -/
theorem C2_witness :
    (∃ da ∈ (PartialSolution.from_assignments
        [Assignment.decision 1 1]).history, da.1 = 1) ∧
    (∃ k, k ≤ (PartialSolution.from_assignments
        [Assignment.decision 1 1]).history.length ∧
      (PartialSolution.from_assignments
          [Assignment.decision 1 1]).backtrack 1 =
        PartialSolution.from_assignments
          (((PartialSolution.from_assignments
            [Assignment.decision 1 1]).history.take k).map
            (fun da => da.2)) ∧
      (∀ da ∈ (PartialSolution.from_assignments
          [Assignment.decision 1 1]).history.take k, da.1 ≤ 1) ∧
      (∀ j da, k ≤ j →
        (PartialSolution.from_assignments
          [Assignment.decision 1 1]).history.get? j =
            Option.some da → 1 < da.1) ∧
      ((PartialSolution.from_assignments
        [Assignment.decision 1 1]).backtrack 1).decision_level = 1) :=
  ⟨by decide, C2_backtrack [Assignment.decision 1 1] 1 (by decide)⟩

theorem lookupA_mem {α : Type} :
    ∀ (l : List (Nat × α)) (k : Nat) (v : α),
      lookupA l k = Option.some v → (k, v) ∈ l := by
  intro l
  induction l with
  | nil =>
    intro k v h
    simp [lookupA] at h
  | cons a rest ih =>
    intro k v h
    rw [lookupA] at h
    by_cases hk : a.1 = k
    · rw [if_pos hk] at h
      simp only [Option.some.injEq] at h
      subst h
      subst hk
      simp
    · rw [if_neg hk] at h
      exact List.mem_cons_of_mem a (ih k v h)

theorem lookupA_of_mem_nodup {α : Type} :
    ∀ (l : List (Nat × α)) (k : Nat) (v : α),
      (l.map (fun kv => kv.1)).Nodup → (k, v) ∈ l →
        lookupA l k = Option.some v := by
  intro l
  induction l with
  | nil =>
    intro k v _ hm
    simp at hm
  | cons a rest ih =>
    intro k v hnd hm
    rw [List.map_cons, List.nodup_cons] at hnd
    rcases List.mem_cons.mp hm with hm | hm
    · rw [← hm]
      simp [lookupA]
    · have hk : a.1 ≠ k := by
        intro he
        apply hnd.1
        have : (fun kv => kv.1) (k, v) ∈ rest.map (fun kv => kv.1) :=
          List.mem_map_of_mem (fun kv => kv.1) hm
        rw [he]
        exact this
      rw [lookupA, if_neg hk]
      exact ih k v hnd.2 hm

theorem lookupA_isSome_iff {α : Type} :
    ∀ (l : List (Nat × α)) (k : Nat),
      (lookupA l k).isSome = true ↔ k ∈ l.map (fun kv => kv.1) := by
  intro l
  induction l with
  | nil =>
    intro k
    simp [lookupA]
  | cons a rest ih =>
    intro k
    rw [lookupA]
    by_cases hk : a.1 = k
    · rw [if_pos hk]
      simp [hk.symm]
    · rw [if_neg hk]
      rw [ih k]
      simp only [List.map_cons, List.mem_cons]
      constructor
      · intro h
        exact Or.inr h
      · intro h
        rcases h with h | h
        · exact absurd h.symm hk
        · exact h

theorem setA_keys {α : Type} :
    ∀ (l : List (Nat × α)) (k : Nat) (v : α),
      (setA l k v).map (fun kv => kv.1) = l.map (fun kv => kv.1) := by
  intro l
  induction l with
  | nil =>
    intro k v
    rfl
  | cons a rest ih =>
    intro k v
    simp only [setA, List.map_cons] at ih ⊢
    by_cases hk : a.1 = k
    · rw [if_pos hk, ih k v]
      simp [hk]
    · rw [if_neg hk, ih k v]

theorem lookupA_setA_self {α : Type} :
    ∀ (l : List (Nat × α)) (k : Nat) (v : α),
      (lookupA l k).isSome = true →
        lookupA (setA l k v) k = Option.some v := by
  intro l
  induction l with
  | nil =>
    intro k v h
    simp [lookupA] at h
  | cons a rest ih =>
    intro k v h
    by_cases hk : a.1 = k
    · simp only [setA, List.map_cons, if_pos hk]
      rw [lookupA, if_pos rfl]
    · rw [lookupA, if_neg hk] at h
      simp only [setA, List.map_cons, if_neg hk]
      rw [lookupA, if_neg hk]
      exact ih k v h

theorem lookupA_setA_ne {α : Type} :
    ∀ (l : List (Nat × α)) (k q : Nat) (v : α), k ≠ q →
      lookupA (setA l k v) q = lookupA l q := by
  intro l
  induction l with
  | nil =>
    intro k q v _
    rfl
  | cons a rest ih =>
    intro k q v hkq
    by_cases hk : a.1 = k
    · simp only [setA, List.map_cons, if_pos hk]
      rw [lookupA, lookupA, if_neg hkq, if_neg (by rw [hk]; exact hkq)]
      exact ih k q v hkq
    · simp only [setA, List.map_cons, if_neg hk]
      rw [lookupA, lookupA]
      by_cases hq : a.1 = q
      · rw [if_pos hq, if_pos hq]
      · rw [if_neg hq, if_neg hq]
        exact ih k q v hkq

theorem lookupA_map_pair {α β : Type} (f : α → β) :
    ∀ (l : List (Nat × α)) (p : Nat),
      lookupA (l.map (fun kv => (kv.1, f kv.2))) p =
        (lookupA l p).map f := by
  intro l
  induction l with
  | nil =>
    intro p
    rfl
  | cons a rest ih =>
    intro p
    simp only [List.map_cons]
    rw [lookupA, lookupA]
    by_cases hp : a.1 = p
    · rw [if_pos hp, if_pos hp]
      rfl
    · rw [if_neg hp, if_neg hp]
      exact ih p

theorem all_false_exists {α : Type} (f : α → Bool) :
    ∀ (l : List α), l.all f = false → ∃ x ∈ l, f x = false := by
  intro l h
  by_contra hc
  push_neg at hc
  have hall : l.all f = true := List.all_eq_true.mpr (fun x hx => by
    have hx2 := hc x hx
    cases hfx : f x
    · exact absurd hfx hx2
    · rfl)
  rw [hall] at h
  exact Bool.noConfusion h

theorem accumOf_nil (p : Nat) : accumOf [] p = Term.anyT := rfl

theorem accumOf_append_one (pre : List (Nat × Assignment))
    (d : Nat × Assignment) (p : Nat) :
    accumOf (pre ++ [d]) p =
      if d.2.package = p then (accumOf pre p).intersection d.2.as_term
      else accumOf pre p := by
  by_cases h : d.2.package = p
  · rw [if_pos h]
    simp only [accumOf, List.filter_append, List.map_append, List.foldl_append]
    simp [List.filter, h]
  · rw [if_neg h]
    have hb2 : (d.2.package == p) = false := by simp [h]
    simp only [accumOf, List.filter_append, List.map_append, List.foldl_append]
    simp [List.filter, hb2]

theorem foldl_inter_canonical :
    ∀ (ts : List Term) (acc : Term), Term.canonicalT acc = true →
      (∀ t ∈ ts, Term.canonicalT t = true) →
      Term.canonicalT (ts.foldl Term.intersection acc) = true := by
  intro ts
  induction ts with
  | nil =>
    intro acc hacc _
    exact hacc
  | cons t rest ih =>
    intro acc hacc hts
    rw [List.foldl_cons]
    exact ih _ (Term.canonicalT_inter acc t hacc (hts t (by simp)))
      (fun u hu => hts u (by simp [hu]))

theorem accumOf_canonical (pre : List (Nat × Assignment)) (p : Nat)
    (h : ∀ da ∈ pre, Term.canonicalT da.2.as_term = true) :
    Term.canonicalT (accumOf pre p) = true := by
  apply foldl_inter_canonical
  · exact Term.canonicalT_anyT
  · intro t ht
    obtain ⟨da, hda, hmap⟩ := List.mem_map.mp ht
    have hda2 := List.mem_filter.mp hda
    rw [← hmap]
    exact h da hda2.1

theorem satByB_false_of_inv (incompat : Incompatibility)
    (hnd : (incompat.package_terms.map (fun pt => pt.1)).Nodup)
    (pre : List (Nat × Assignment)) (accum : List (Nat × (Bool × Term)))
    (hinv : SatAccumInv incompat pre accum) :
    SatByB incompat pre = false := by
  obtain ⟨hkeys, hb, kv, hkvmem, hkvfl⟩ := hinv
  have hk1 : kv.1 ∈ incompat.package_terms.map (fun pt => pt.1) := by
    rw [← hkeys]
    exact List.mem_map_of_mem (fun kv => kv.1) hkvmem
  obtain ⟨pt, hptmem, hpt1⟩ := List.mem_map.mp hk1
  have hmem2 : (kv.1, pt.2) ∈ incompat.package_terms := by
    rw [← hpt1]
    simpa using hptmem
  have hget : incompat.get kv.1 = Option.some pt.2 :=
    lookupA_of_mem_nodup _ _ _ hnd hmem2
  have hacnd : (accum.map (fun kv => kv.1)).Nodup := by
    rw [hkeys]
    exact hnd
  have hlac : lookupA accum kv.1 = Option.some kv.2 := by
    apply lookupA_of_mem_nodup _ _ _ hacnd
    simpa using hkvmem
  have hsub : (accumOf pre kv.1).subset_of pt.2 = false :=
    ((hb kv.1 pt.2 hget kv.2.1 kv.2.2 (by rw [hlac])).2 hkvfl).2
  cases hall : SatByB incompat pre with
  | false => rfl
  | true =>
    exfalso
    unfold SatByB at hall
    have hone : (accumOf pre pt.1).subset_of pt.2 = true :=
      List.all_eq_true.mp hall pt hptmem
    rw [hpt1] at hone
    rw [hsub] at hone
    exact Bool.noConfusion hone

theorem fsh_cons_skip (incompat : Incompatibility)
    (accum : List (Nat × (Bool × Term))) (d : Nat × Assignment)
    (rest : List (Nat × Assignment))
    (hget : incompat.get d.2.package = Option.none) :
    PartialSolution.find_satisfier_helper incompat accum (d :: rest) =
      (PartialSolution.find_satisfier_helper incompat accum rest).map
        (fun sp => (sp.1, d :: sp.2)) := by
  rw [PartialSolution.find_satisfier_helper, hget]

theorem fsh_cons_nolookup (incompat : Incompatibility)
    (accum : List (Nat × (Bool × Term))) (d : Nat × Assignment)
    (rest : List (Nat × Assignment)) (itm : Term)
    (hget : incompat.get d.2.package = Option.some itm)
    (hla : lookupA accum d.2.package = Option.none) :
    PartialSolution.find_satisfier_helper incompat accum (d :: rest) =
      Option.none := by
  rw [PartialSolution.find_satisfier_helper, hget, hla]

theorem fsh_cons_true (incompat : Incompatibility)
    (accum : List (Nat × (Bool × Term))) (d : Nat × Assignment)
    (rest : List (Nat × Assignment)) (itm tm : Term)
    (hget : incompat.get d.2.package = Option.some itm)
    (hla : lookupA accum d.2.package = Option.some (true, tm)) :
    PartialSolution.find_satisfier_helper incompat accum (d :: rest) =
      (PartialSolution.find_satisfier_helper incompat accum rest).map
        (fun sp => (sp.1, d :: sp.2)) := by
  rw [PartialSolution.find_satisfier_helper, hget, hla]

theorem fsh_cons_false (incompat : Incompatibility)
    (accum : List (Nat × (Bool × Term))) (d : Nat × Assignment)
    (rest : List (Nat × Assignment)) (itm tm : Term)
    (hget : incompat.get d.2.package = Option.some itm)
    (hla : lookupA accum d.2.package = Option.some (false, tm)) :
    PartialSolution.find_satisfier_helper incompat accum (d :: rest) =
      (if (tm.intersection d.2.as_term).subset_of itm &&
          (setA accum d.2.package
            ((tm.intersection d.2.as_term).subset_of itm,
              tm.intersection d.2.as_term)).all (fun kv => kv.2.1) then
        Option.some (d, [])
      else
        (PartialSolution.find_satisfier_helper incompat
          (setA accum d.2.package
            ((tm.intersection d.2.as_term).subset_of itm,
              tm.intersection d.2.as_term)) rest).map
          (fun sp => (sp.1, d :: sp.2))) := by
  rw [PartialSolution.find_satisfier_helper, hget, hla]

theorem fsh_lift (incompat : Incompatibility) (d : Nat × Assignment)
    (rest pre : List (Nat × Assignment)) (sat : Nat × Assignment)
    (sp2 : List (Nat × Assignment)) (i : Nat)
    (hpreF : SatByB incompat pre = false)
    (hi1 : rest.get? i = Option.some sat) (hi2 : sp2 = rest.take i)
    (hi3 : SatByB incompat ((pre ++ [d]) ++ rest.take (i + 1)) = true)
    (hi4 : ∀ j, j ≤ i → SatByB incompat ((pre ++ [d]) ++ rest.take j) = false) :
    (d :: rest).get? (i + 1) = Option.some sat ∧
    d :: sp2 = (d :: rest).take (i + 1) ∧
    SatByB incompat (pre ++ (d :: rest).take (i + 1 + 1)) = true ∧
    ∀ j, j ≤ i + 1 → SatByB incompat (pre ++ (d :: rest).take j) = false := by
  refine ⟨hi1, ?_, ?_, ?_⟩
  · rw [hi2, List.take_succ_cons]
  · have heq : pre ++ (d :: rest).take (i + 1 + 1) =
        (pre ++ [d]) ++ rest.take (i + 1) := by
      rw [List.take_succ_cons, List.append_cons]
    rw [heq]
    exact hi3
  · intro j hj
    rcases j with _ | j
    · rw [List.take_zero, List.append_nil]
      exact hpreF
    · have heq : pre ++ (d :: rest).take (j + 1) =
          (pre ++ [d]) ++ rest.take j := by
        rw [List.take_succ_cons, List.append_cons]
      rw [heq]
      exact hi4 j (by omega)

theorem fsh_spec (incompat : Incompatibility)
    (hnd : (incompat.package_terms.map (fun pt => pt.1)).Nodup)
    (hterms : ∀ pt ∈ incompat.package_terms, Term.canonicalT pt.2 = true) :
    ∀ (rest : List (Nat × Assignment)) (accum : List (Nat × (Bool × Term)))
      (pre : List (Nat × Assignment)),
      (∀ da ∈ pre, Term.canonicalT da.2.as_term = true) →
      (∀ da ∈ rest, Term.canonicalT da.2.as_term = true) →
      SatAccumInv incompat pre accum →
      ∀ sat older,
        PartialSolution.find_satisfier_helper incompat accum rest =
          Option.some (sat, older) →
        ∃ i, rest.get? i = Option.some sat ∧ older = rest.take i ∧
          SatByB incompat (pre ++ rest.take (i + 1)) = true ∧
          ∀ j, j ≤ i → SatByB incompat (pre ++ rest.take j) = false := by
  intro rest
  induction rest with
  | nil =>
    intro accum pre _ _ _ sat older hfind
    rw [PartialSolution.find_satisfier_helper] at hfind
    exact Option.noConfusion hfind
  | cons d rest ih =>
    intro accum pre hpre hrest hinv sat older hfind
    have hd_canon : Term.canonicalT d.2.as_term = true :=
      hrest d (List.mem_cons_self d rest)
    have hrest2 : ∀ da ∈ rest, Term.canonicalT da.2.as_term = true :=
      fun da hda => hrest da (List.mem_cons_of_mem d hda)
    have hpre2 : ∀ da ∈ pre ++ [d], Term.canonicalT da.2.as_term = true := by
      intro da hda
      rcases List.mem_append.mp hda with h | h
      · exact hpre da h
      · simp at h
        rw [h]
        exact hd_canon
    rcases hget : incompat.get d.2.package with _ | itm
    · rw [fsh_cons_skip incompat accum d rest hget] at hfind
      have hinv2 : SatAccumInv incompat (pre ++ [d]) accum := by
        obtain ⟨h1, h2, h3⟩ := hinv
        refine ⟨h1, ?_, h3⟩
        intro p tp hgp fl tm hla
        have hne : d.2.package ≠ p := by
          intro he
          rw [he, hgp] at hget
          exact Option.noConfusion hget
        have hacc : accumOf (pre ++ [d]) p = accumOf pre p := by
          rw [accumOf_append_one, if_neg hne]
        rw [hacc]
        exact h2 p tp hgp fl tm hla
      rcases hrec : PartialSolution.find_satisfier_helper incompat accum rest
          with _ | sp
      · rw [hrec] at hfind
        exact Option.noConfusion hfind
      · rw [hrec] at hfind
        simp only [Option.map] at hfind
        simp only [Option.some.injEq, Prod.mk.injEq] at hfind
        obtain ⟨hfs, hfo⟩ := hfind
        obtain ⟨i, hi1, hi2, hi3, hi4⟩ :=
          ih accum (pre ++ [d]) hpre2 hrest2 hinv2 sp.1 sp.2 (by rw [hrec])
        obtain ⟨g1, g2, g3, g4⟩ := fsh_lift incompat d rest pre sp.1 sp.2 i
          (satByB_false_of_inv incompat hnd pre accum hinv) hi1 hi2 hi3 hi4
        refine ⟨i + 1, ?_, ?_, g3, g4⟩
        · rw [← hfs]
          exact g1
        · rw [← hfo]
          exact g2
    · rcases hla : lookupA accum d.2.package with _ | fltm
      · rw [fsh_cons_nolookup incompat accum d rest itm hget hla] at hfind
        exact Option.noConfusion hfind
      · rcases fltm with ⟨fl, tm⟩
        cases fl with
        | true =>
          rw [fsh_cons_true incompat accum d rest itm tm hget hla] at hfind
          have hinv2 : SatAccumInv incompat (pre ++ [d]) accum := by
            obtain ⟨h1, h2, h3⟩ := hinv
            refine ⟨h1, ?_, h3⟩
            intro p tp hgp fl2 tm2 hla2
            by_cases hp : d.2.package = p
            · subst hp
              rw [hla] at hla2
              simp only [Option.some.injEq, Prod.mk.injEq] at hla2
              obtain ⟨hfl2, htm2⟩ := hla2
              have hacc : accumOf (pre ++ [d]) d.2.package =
                  (accumOf pre d.2.package).intersection d.2.as_term := by
                rw [accumOf_append_one, if_pos rfl]
              have htpcan : Term.canonicalT tp = true :=
                hterms (d.2.package, tp) (lookupA_mem _ _ _ hgp)
              constructor
              · intro _
                have hold : (accumOf pre d.2.package).subset_of tp = true :=
                  (h2 d.2.package tp hgp true tm hla).1 rfl
                rw [hacc]
                exact Term.term_subset_mono _ _ _
                  (accumOf_canonical pre _ hpre) hd_canon htpcan hold
              · intro hff
                rw [← hfl2] at hff
                exact Bool.noConfusion hff
            · have hacc : accumOf (pre ++ [d]) p = accumOf pre p := by
                rw [accumOf_append_one, if_neg hp]
              rw [hacc]
              exact h2 p tp hgp fl2 tm2 hla2
          rcases hrec : PartialSolution.find_satisfier_helper incompat accum rest
              with _ | sp
          · rw [hrec] at hfind
            exact Option.noConfusion hfind
          · rw [hrec] at hfind
            simp only [Option.map] at hfind
            simp only [Option.some.injEq, Prod.mk.injEq] at hfind
            obtain ⟨hfs, hfo⟩ := hfind
            obtain ⟨i, hi1, hi2, hi3, hi4⟩ :=
              ih accum (pre ++ [d]) hpre2 hrest2 hinv2 sp.1 sp.2 (by rw [hrec])
            obtain ⟨g1, g2, g3, g4⟩ := fsh_lift incompat d rest pre sp.1 sp.2 i
              (satByB_false_of_inv incompat hnd pre accum hinv) hi1 hi2 hi3 hi4
            refine ⟨i + 1, ?_, ?_, g3, g4⟩
            · rw [← hfs]
              exact g1
            · rw [← hfo]
              exact g2
        | false =>
          rw [fsh_cons_false incompat accum d rest itm tm hget hla] at hfind
          obtain ⟨h1, h2, h3⟩ := hinv
          have hIsSome : (lookupA accum d.2.package).isSome = true := by
            rw [hla]
            rfl
          obtain ⟨htm, hnotsub⟩ := (h2 d.2.package itm hget false tm hla).2 rfl
          have haccd : accumOf (pre ++ [d]) d.2.package =
              tm.intersection d.2.as_term := by
            rw [accumOf_append_one, if_pos rfl, ← htm]
          by_cases hcond : ((tm.intersection d.2.as_term).subset_of itm &&
              (setA accum d.2.package
                ((tm.intersection d.2.as_term).subset_of itm,
                  tm.intersection d.2.as_term)).all (fun kv => kv.2.1)) = true
          · rw [if_pos hcond] at hfind
            simp only [Option.some.injEq, Prod.mk.injEq] at hfind
            obtain ⟨hsatd, holder⟩ := hfind
            rw [Bool.and_eq_true] at hcond
            obtain ⟨hcs, hca⟩ := hcond
            refine ⟨0, ?_, ?_, ?_, ?_⟩
            · rw [← hsatd]
              rfl
            · rw [← holder]
              rfl
            · have hTake : (d :: rest).take (0 + 1) = [d] := rfl
              rw [hTake]
              unfold SatByB
              rw [List.all_eq_true]
              intro pt hpt
              show (accumOf (pre ++ [d]) pt.1).subset_of pt.2 = true
              have hget2 : incompat.get pt.1 = Option.some pt.2 := by
                apply lookupA_of_mem_nodup _ _ _ hnd
                simpa using hpt
              by_cases hp : d.2.package = pt.1
              · rw [← hp, hget] at hget2
                have hitm : itm = pt.2 := by simpa using hget2
                rw [← hp, haccd, ← hitm]
                exact hcs
              · have hacc2 : accumOf (pre ++ [d]) pt.1 = accumOf pre pt.1 := by
                  rw [accumOf_append_one, if_neg hp]
                rw [hacc2]
                have hkeymem : pt.1 ∈ accum.map (fun kv => kv.1) := by
                  rw [h1]
                  exact List.mem_map_of_mem (fun pt => pt.1) hpt
                have hsomeA : (lookupA accum pt.1).isSome = true :=
                  (lookupA_isSome_iff accum pt.1).mpr hkeymem
                rcases hlb : lookupA accum pt.1 with _ | flt
                · rw [hlb] at hsomeA
                  exact Bool.noConfusion hsomeA
                · have hlb2 : lookupA (setA accum d.2.package
                      ((tm.intersection d.2.as_term).subset_of itm,
                        tm.intersection d.2.as_term)) pt.1 =
                      Option.some flt := by
                    rw [lookupA_setA_ne _ _ _ _ hp]
                    exact hlb
                  have hmemb := lookupA_mem _ _ _ hlb2
                  have hfl2 : flt.1 = true := by
                    have := List.all_eq_true.mp hca _ hmemb
                    simpa using this
                  exact (h2 pt.1 pt.2 hget2 flt.1 flt.2 (by rw [hlb])).1 hfl2
            · intro j hj
              have hj0 : j = 0 := by omega
              subst hj0
              rw [List.take_zero, List.append_nil]
              exact satByB_false_of_inv incompat hnd pre accum ⟨h1, h2, h3⟩
          · rw [if_neg hcond] at hfind
            have hinv2 : SatAccumInv incompat (pre ++ [d])
                (setA accum d.2.package
                  ((tm.intersection d.2.as_term).subset_of itm,
                    tm.intersection d.2.as_term)) := by
              refine ⟨?_, ?_, ?_⟩
              · rw [setA_keys]
                exact h1
              · intro p tp hgp fl2 tm2 hla2
                by_cases hp : d.2.package = p
                · subst hp
                  rw [lookupA_setA_self _ _ _ hIsSome] at hla2
                  simp only [Option.some.injEq, Prod.mk.injEq] at hla2
                  obtain ⟨hfl2, htm2⟩ := hla2
                  have htp : itm = tp := by
                    rw [hget] at hgp
                    simpa using hgp
                  constructor
                  · intro hft
                    rw [haccd, ← htp, hfl2]
                    exact hft
                  · intro hff
                    constructor
                    · rw [haccd]
                      exact htm2.symm
                    · rw [haccd, ← htp, hfl2]
                      exact hff
                · rw [lookupA_setA_ne _ _ _ _ hp] at hla2
                  have hacc2 : accumOf (pre ++ [d]) p = accumOf pre p := by
                    rw [accumOf_append_one, if_neg hp]
                  rw [hacc2]
                  exact h2 p tp hgp fl2 tm2 hla2
              · rcases hcs : (tm.intersection d.2.as_term).subset_of itm with _ | _
                · refine ⟨(d.2.package, (false, tm.intersection d.2.as_term)),
                    ?_, rfl⟩
                  exact lookupA_mem _ _ _ (lookupA_setA_self _ _ _ hIsSome)
                · rw [hcs] at hcond
                  simp only [Bool.true_and] at hcond
                  have hallf : (setA accum d.2.package
                      (true, tm.intersection d.2.as_term)).all
                      (fun kv => kv.2.1) = false := by
                    rcases hv : (setA accum d.2.package
                        (true, tm.intersection d.2.as_term)).all
                        (fun kv => kv.2.1) with _ | _
                    · rfl
                    · exact absurd hv hcond
                  obtain ⟨kv, hkvm, hkvf⟩ := all_false_exists _ _ hallf
                  exact ⟨kv, hkvm, hkvf⟩
            rcases hrec : PartialSolution.find_satisfier_helper incompat
                (setA accum d.2.package
                  ((tm.intersection d.2.as_term).subset_of itm,
                    tm.intersection d.2.as_term)) rest with _ | sp
            · rw [hrec] at hfind
              exact Option.noConfusion hfind
            · rw [hrec] at hfind
              simp only [Option.map] at hfind
              simp only [Option.some.injEq, Prod.mk.injEq] at hfind
              obtain ⟨hfs, hfo⟩ := hfind
              obtain ⟨i, hi1, hi2, hi3, hi4⟩ :=
                ih _ (pre ++ [d]) hpre2 hrest2 hinv2 sp.1 sp.2 (by rw [hrec])
              obtain ⟨g1, g2, g3, g4⟩ := fsh_lift incompat d rest pre sp.1 sp.2 i
                (satByB_false_of_inv incompat hnd pre accum ⟨h1, h2, h3⟩)
                hi1 hi2 hi3 hi4
              refine ⟨i + 1, ?_, ?_, g3, g4⟩
              · rw [← hfs]
                exact g1
              · rw [← hfo]
                exact g2

theorem lookupA_map_false_any :
    ∀ (l : List (Nat × Term)) (p : Nat),
      lookupA (l.map (fun pt => (pt.1, ((false : Bool), Term.anyT)))) p =
        (lookupA l p).map (fun _ => ((false : Bool), Term.anyT)) := by
  intro l
  induction l with
  | nil =>
    intro p
    rfl
  | cons a rest ih =>
    intro p
    simp only [List.map_cons]
    rw [lookupA, lookupA]
    by_cases hp : a.1 = p
    · rw [if_pos hp, if_pos hp]
      rfl
    · rw [if_neg hp, if_neg hp]
      exact ih p

theorem init_accum_inv (incompat : Incompatibility)
    (hterms : ∀ pt ∈ incompat.package_terms,
      Term.canonicalT pt.2 = true ∧ pt.2 ≠ Term.anyT)
    (hne : incompat.package_terms ≠ []) :
    SatAccumInv incompat []
      (PartialSolution.new_accum_satisfied_from incompat) := by
  refine ⟨?_, ?_, ?_⟩
  · simp [PartialSolution.new_accum_satisfied_from, List.map_map, Function.comp]
  · intro p tp hgp fl tm hla
    unfold PartialSolution.new_accum_satisfied_from at hla
    rw [lookupA_map_false_any] at hla
    rw [show lookupA incompat.package_terms p = incompat.get p from rfl] at hla
    rw [hgp] at hla
    simp only [Option.map] at hla
    simp only [Option.some.injEq, Prod.mk.injEq] at hla
    obtain ⟨hfl, htm⟩ := hla
    constructor
    · intro hft
      rw [← hfl] at hft
      exact Bool.noConfusion hft
    · intro _
      constructor
      · rw [accumOf_nil]
        exact htm.symm
      · rw [accumOf_nil]
        have hptmem : (p, tp) ∈ incompat.package_terms := lookupA_mem _ _ _ hgp
        obtain ⟨hcan, hneq⟩ := hterms (p, tp) hptmem
        exact Term.term_subset_anyT_false tp hcan hneq
  · rcases hl : incompat.package_terms with _ | ⟨pt0, rest0⟩
    · exact absurd hl hne
    · refine ⟨(pt0.1, ((false : Bool), Term.anyT)), ?_, rfl⟩
      unfold PartialSolution.new_accum_satisfied_from
      rw [hl]
      simp

theorem fsapsl_eq (ps : PartialSolution) (incompat : Incompatibility)
    (satp : Nat × Assignment) (older : List (Nat × Assignment))
    (h1 : PartialSolution.find_satisfier incompat ps.history =
      Option.some (satp, older)) :
    ps.find_satisfier_and_previous_satisfier_level incompat =
      (match PartialSolution.find_previous_satisfier incompat satp.2 older with
        | Option.none => Option.none
        | Option.some lvl => Option.some (satp.2, satp.1, lvl)) := by
  rw [PartialSolution.find_satisfier_and_previous_satisfier_level, h1]

/-- C5: the satisfier returned by
`find_satisfier_and_previous_satisfier_level` for an incompatibility is
the earliest dated assignment of the log such that the incompatibility is
satisfied by the prefix of the log up to and including that assignment —
where a prefix satisfies the incompatibility exactly when, for every
package appearing in it, the intersection of the as-terms of that
package's assignments in the prefix is a subset of the incompatibility's
term for that package (`SatByB`).  Stated for incompatibilities with
distinct packages and canonical, non-`any` terms (the invariants the
solver's constructors maintain) and a log of canonical as-terms. -/
theorem C5_satisfier (ps : PartialSolution) (incompat : Incompatibility)
    (hnd : (incompat.package_terms.map (fun pt => pt.1)).Nodup)
    (hterms : ∀ pt ∈ incompat.package_terms,
      Term.canonicalT pt.2 = true ∧ pt.2 ≠ Term.anyT)
    (hne : incompat.package_terms ≠ [])
    (hhist : ∀ da ∈ ps.history, Term.canonicalT da.2.as_term = true)
    (sat : Assignment) (lvl plvl : Nat)
    (hfind : ps.find_satisfier_and_previous_satisfier_level incompat =
      Option.some (sat, lvl, plvl)) :
    ∃ i da, ps.history.get? i = Option.some da ∧ da.2 = sat ∧ da.1 = lvl ∧
      SatByB incompat (ps.history.take (i + 1)) = true ∧
      ∀ j, j ≤ i → SatByB incompat (ps.history.take j) = false := by
  rcases hfs : PartialSolution.find_satisfier incompat ps.history with _ | so
  · rw [PartialSolution.find_satisfier_and_previous_satisfier_level, hfs]
      at hfind
    exact Option.noConfusion hfind
  · rcases so with ⟨satp, older⟩
    rw [fsapsl_eq ps incompat satp older hfs] at hfind
    rcases hprev : PartialSolution.find_previous_satisfier incompat satp.2 older
        with _ | lv
    · rw [hprev] at hfind
      exact Option.noConfusion hfind
    · rw [hprev] at hfind
      simp only [Option.some.injEq, Prod.mk.injEq] at hfind
      obtain ⟨hs1, hs2, hs3⟩ := hfind
      rw [PartialSolution.find_satisfier] at hfs
      obtain ⟨i, hi1, hi2, hi3, hi4⟩ :=
        fsh_spec incompat hnd (fun pt h => (hterms pt h).1)
          ps.history (PartialSolution.new_accum_satisfied_from incompat) []
          (by intro da h; simp at h) hhist
          (init_accum_inv incompat hterms hne) satp older hfs
      rw [List.nil_append] at hi3
      refine ⟨i, satp, hi1, hs1, hs2, hi3, ?_⟩
      intro j hj
      have := hi4 j hj
      rw [List.nil_append] at this
      exact this

/-- C5 witness: the theorem applied to the one-decision partial solution
and the single-package incompatibility, whose hypotheses hold by
computation; the satisfier is the decision itself at level 1. -/
theorem C5_witness :
    ((exA.package_terms.map (fun pt => pt.1)).Nodup ∧
      exPS1.find_satisfier_and_previous_satisfier_level exA =
        Option.some (Assignment.decision 1 1, 1, 1)) ∧
    (∃ i da, exPS1.history.get? i = Option.some da ∧
      da.2 = Assignment.decision 1 1 ∧ da.1 = 1 ∧
      SatByB exA (exPS1.history.take (i + 1)) = true ∧
      ∀ j, j ≤ i → SatByB exA (exPS1.history.take j) = false) :=
  ⟨⟨by decide, by decide⟩,
    C5_satisfier exPS1 exA (by decide) (by decide) (by decide) (by decide)
      (Assignment.decision 1 1) 1 1 (by decide)⟩

end PubGrub
